import Mathlib

/-! csc2026: particle layouts, event aggregation and track reconstruction

A shallow embedding of

* `exercises/SD-E2-benchmark-and-optimize/starter/include/ParticleLayouts.hpp`
  (namespace `sd_e2`),
* `exercises/TT-E1-debugging-sanitizers/starter/src/TrackReconstructor.cpp`
  (namespace `tt_e1`),
* the `EventProcessor` exercised by `tests/test_event_processor.cpp`
  (namespace `csc2026`).

A C++ `double` is a value of a scalar type `α`.  The operations the code calls
on doubles are kept symbolic: `+` and `*` come from `Add α` and `Mul α`,
`std::sqrt` and `std::pow` are passed to the functions as `sqrt` and `pow`.
Instantiating `α := ℝ`, `sqrt := Real.sqrt`, `pow := fun x y => x ^ y` gives the
exact reading of the arithmetic; instantiating `α := F64`, the IEEE 754 binary64
numbers with correctly rounded `+`, `*` and `sqrt`, gives the arithmetic of the
machine.  A `std::vector` is a `List`; a `size_t` is a `Nat`.  A member function
that can throw returns the state it leaves behind together with the exception.
-/

namespace sd_e2

/-- The exceptions `std::vector<T>::resize` can throw. -/
inductive ResizeError where
  | length_error
  | bad_alloc
deriving DecidableEq, Repr

/-- The effect of `std::vector<T>::resize(n)` on the contents `v`, where `d` is a
value-initialised `T`.  Shrinking keeps the first `n` elements and cannot fail.
Growing throws `std::length_error` when `n` exceeds `max_size()`, throws
`std::bad_alloc` when the storage cannot be grown (`canGrow = false`), and
otherwise appends `n - v.size()` copies of `d`.  `max_size` is the library's
constant and `canGrow` the answer of the allocator; both are parameters.  A call
that throws leaves the vector as it was, so an error carries no contents. -/
def vectorResize {β : Type} (max_size : Nat) (canGrow : Bool) (d : β) (v : List β)
    (n : Nat) : Except ResizeError (List β) :=
  if n ≤ v.length then .ok (v.take n)
  else if max_size < n then .error .length_error
  else if canGrow then .ok (v ++ List.replicate (n - v.length) d)
  else .error .bad_alloc

/-- The record `struct ParticleAoS { double px{}; double py{}; double pz{}; double mass{}; }`. -/
structure ParticleAoS (α : Type) where
  px : α
  py : α
  pz : α
  mass : α
deriving DecidableEq, Repr

/-- A value-initialised `ParticleAoS`: every member has the initialiser `{}`. -/
def ParticleAoS.init {α : Type} [Zero α] : ParticleAoS α :=
  { px := 0, py := 0, pz := 0, mass := 0 }

/-- The collection `struct ParticlesAoS { std::vector<ParticleAoS> particles; ... }`. -/
structure ParticlesAoS (α : Type) where
  particles : List (ParticleAoS α)
deriving DecidableEq, Repr

/-- `ParticlesAoS::resize`: `particles.resize(n)`.  The result is the collection
after the call together with the exception that left the call, if any; an
exception of the vector is not caught and the vector is then unchanged. -/
def ParticlesAoS.resize {α : Type} [Zero α] (max_size : Nat) (canGrow : Bool)
    (self : ParticlesAoS α) (n : Nat) : ParticlesAoS α × Option ResizeError :=
  match vectorResize max_size canGrow ParticleAoS.init self.particles n with
  | .ok particles => ({ particles := particles }, none)
  | .error e => (self, some e)

/-- `ParticlesAoS::sumEnergy`: the range-for loop over `particles`, accumulating into
`sum`, which starts at `0.0`. -/
def ParticlesAoS.sumEnergy {α : Type} [Zero α] [Add α] [Mul α] (sqrt : α → α)
    (self : ParticlesAoS α) : α :=
  self.particles.foldl
    (fun sum p =>
      let p2 := p.px * p.px + p.py * p.py + p.pz * p.pz
      sum + sqrt (p2 + p.mass * p.mass))
    0

/-- The collection `struct ParticlesSoA` of four `std::vector<double>`. -/
structure ParticlesSoA (α : Type) where
  px : List α
  py : List α
  pz : List α
  mass : List α
deriving DecidableEq, Repr

/-- `ParticlesSoA::resize`: `px.resize(n); py.resize(n); pz.resize(n);
mass.resize(n);`, four statements in this order.  `canGrow k` is the answer of the
allocator to statement `k` (`0` for `px`, ..., `3` for `mass`).  The result is the
collection after the call together with the exception that left the call, if any:
the first statement that throws ends the call, the vectors resized before it keep
their new contents and the others are untouched. -/
def ParticlesSoA.resize {α : Type} [Zero α] (max_size : Nat) (canGrow : Nat → Bool)
    (self : ParticlesSoA α) (n : Nat) : ParticlesSoA α × Option ResizeError :=
  match vectorResize max_size (canGrow 0) 0 self.px n with
  | .error e => (self, some e)
  | .ok px =>
    match vectorResize max_size (canGrow 1) 0 self.py n with
    | .error e => ({ self with px := px }, some e)
    | .ok py =>
      match vectorResize max_size (canGrow 2) 0 self.pz n with
      | .error e => ({ self with px := px, py := py }, some e)
      | .ok pz =>
        match vectorResize max_size (canGrow 3) 0 self.mass n with
        | .error e => ({ self with px := px, py := py, pz := pz }, some e)
        | .ok mass => ({ px := px, py := py, pz := pz, mass := mass }, none)

/-- The value of `static volatile double two = 2.0`. -/
def two {α : Type} [OfNat α 2] : α := 2

/-- One iteration of the loop of `ParticlesSoA::sumEnergy` at index `i`.  The
subscripts `px[i]`, `py[i]`, `pz[i]`, `mass[i]` are unchecked in C++; a read outside
a vector is reported as `none`. -/
def ParticlesSoA.sumEnergyStep {α : Type} [Add α] (pow : α → α → α) (sqrt : α → α)
    (self : ParticlesSoA α) (exp : α) (sum : α) (i : Nat) : Option α := do
  let x ← self.px[i]?
  let y ← self.py[i]?
  let z ← self.pz[i]?
  let m ← self.mass[i]?
  let p2 := pow x exp + pow y exp + pow z exp
  pure (sum + sqrt (p2 + pow m exp))

/-- `ParticlesSoA::sumEnergy`: `for (size_t i = 0; i < px.size(); ++i)`, with
`exp` read from `two` and `sum` starting at `0.0`. -/
def ParticlesSoA.sumEnergy {α : Type} [Zero α] [Add α] [OfNat α 2] (pow : α → α → α)
    (sqrt : α → α) (self : ParticlesSoA α) : Option α :=
  let exp : α := two
  (List.range self.px.length).foldlM (self.sumEnergyStep pow sqrt exp) 0

/-- Specification side of the energy sum: the left-to-right sum
`((0.0 + e 0) + e 1) + ... + e (n-1)`, which starts from `0.0` and takes the terms in
index order. -/
def leftSum {α : Type} [Zero α] [Add α] (e : Nat → α) : Nat → α
  | 0 => 0
  | k + 1 => leftSum e k + e k

/-- Specification side of the energy sum: the term
`sqrt(px_i² + py_i² + pz_i² + mass_i²)` of the entry at index `i` of an AoS
collection (`0.0` when there is no such entry). -/
def ParticlesAoS.energyAt {α : Type} [Zero α] [Add α] [Mul α] (sqrt : α → α)
    (self : ParticlesAoS α) (i : Nat) : α :=
  match self.particles[i]? with
  | some p => sqrt (p.px * p.px + p.py * p.py + p.pz * p.pz + p.mass * p.mass)
  | none => 0

/-- Loading a list of tuples `(px, py, pz, mass)` into the AoS layout: one record
per tuple. -/
def ParticlesAoS.ofTuples {α : Type} (l : List (α × α × α × α)) : ParticlesAoS α :=
  { particles := l.map fun t => { px := t.1, py := t.2.1, pz := t.2.2.1, mass := t.2.2.2 } }

/-- Loading a list of tuples `(px, py, pz, mass)` into the SoA layout: the four
arrays hold the components at the tuple's index. -/
def ParticlesSoA.ofTuples {α : Type} (l : List (α × α × α × α)) : ParticlesSoA α :=
  { px := l.map fun t => t.1
    py := l.map fun t => t.2.1
    pz := l.map fun t => t.2.2.1
    mass := l.map fun t => t.2.2.2 }

end sd_e2

namespace tt_e1

/-- The members of `struct Track` that `reconstruct` assigns: `pt` (a double) and
`hits` (a `std::vector<Hit>`).  The type `Hit` is declared in
`TrackReconstructor.hpp` and is a parameter here. -/
structure Track (Hit α : Type) where
  pt : α
  hits : List Hit
deriving DecidableEq, Repr

/-- The data members of `class TrackReconstructor`: `m_minPt` and `m_hits`. -/
structure TrackReconstructor (Hit α : Type) where
  m_minPt : α
  m_hits : List Hit
deriving DecidableEq, Repr

/-- The constructor `TrackReconstructor(double minPt) : m_minPt(minPt) {}`;
`m_hits` is default-constructed, hence empty. -/
def TrackReconstructor.new {Hit α : Type} (minPt : α) : TrackReconstructor Hit α :=
  { m_minPt := minPt, m_hits := [] }

/-- `TrackReconstructor::addHit`: `m_hits.push_back(hit)`. -/
def TrackReconstructor.addHit {Hit α : Type} (self : TrackReconstructor Hit α)
    (hit : Hit) : TrackReconstructor Hit α :=
  { self with m_hits := self.m_hits ++ [hit] }

/-- The heap array behind `Hit* hitBuffer`: `cells` are the elements of the
allocation (`none` for an element not assigned yet), `written` lists, in order, the
indices the program has assigned through the pointer. -/
structure HitBuffer (Hit : Type) where
  cells : List (Option Hit)
  written : List Nat
deriving DecidableEq, Repr

/-- The allocation `new Hit[n]`: `n` elements, none assigned yet. -/
def HitBuffer.alloc {Hit : Type} (n : Nat) : HitBuffer Hit :=
  { cells := List.replicate n none, written := [] }

/-- The assignment `hitBuffer[i] = h`.  It succeeds inside the allocation and is
`none` (a heap buffer overflow) when `i` is not an index of the allocation. -/
def HitBuffer.write {Hit : Type} (buf : HitBuffer Hit) (i : Nat) (h : Hit) :
    Option (HitBuffer Hit) :=
  if i < buf.cells.length then
    some { cells := buf.cells.set i (some h), written := buf.written ++ [i] }
  else
    none

/-- The copy loop of `reconstruct`:
`for (size_t i = 0; i < m_hits.size(); ++i) hitBuffer[i] = m_hits[i];`
run on a fresh allocation `new Hit[m_hits.size()]`. -/
def TrackReconstructor.copyHits {Hit α : Type} (self : TrackReconstructor Hit α) :
    Option (HitBuffer Hit) :=
  (List.range self.m_hits.length).foldlM
    (fun hitBuffer i => do
      let h ← self.m_hits[i]?
      hitBuffer.write i h)
    (HitBuffer.alloc self.m_hits.length)

/-- `TrackReconstructor::reconstruct`.  The result is the returned vector of tracks
together with the reconstructor after the call; it is `none` when the copy loop
leaves the allocation.  `hitBuffer` is never deleted and never read. -/
def TrackReconstructor.reconstruct {Hit α : Type} [OfScientific α]
    (self : TrackReconstructor Hit α) :
    Option (List (Track Hit α) × TrackReconstructor Hit α) := do
  let tracks : List (Track Hit α) := []
  let _hitBuffer ← self.copyHits
  let tracks :=
    if !self.m_hits.isEmpty then
      let t : Track Hit α := { pt := 0.0, hits := [] }
      let t : Track Hit α := { t with pt := 10.0 }
      let t : Track Hit α := { t with hits := self.m_hits }
      tracks ++ [t]
    else
      tracks
  pure (tracks, self)

end tt_e1

namespace csc2026

/-- Modelled from the spec: `Particle.hpp` is not among the sources.  A particle is
the four numbers `px, py, pz, mass` it is constructed from. -/
structure Particle (α : Type) where
  px : α
  py : α
  pz : α
  mass : α
deriving DecidableEq, Repr

/-- Modelled from the spec: `Particle::energy` is not among the sources; the spec
gives `energy = sqrt(px² + py² + pz² + mass²)`. -/
def Particle.energy {α : Type} [Add α] [Mul α] (sqrt : α → α) (p : Particle α) : α :=
  sqrt (p.px * p.px + p.py * p.py + p.pz * p.pz + p.mass * p.mass)

/-- Modelled from the spec: `struct Event` is not among the sources; it has an
integer `eventNumber` and an ordered sequence `particles`. -/
structure Event (α : Type) where
  eventNumber : Int
  particles : List (Particle α)
deriving DecidableEq, Repr

/-- Modelled from the spec: `EventProcessor.hpp` is not among the sources.  The
state of an `EventProcessor` is its two running totals. -/
structure EventProcessor (α : Type) where
  totalTracksProcessed : Nat
  totalEnergy : α
deriving DecidableEq, Repr

/-- Modelled from the spec: the default constructor of `EventProcessor` is not among
the sources; the totals are zero-initialised at construction. -/
def EventProcessor.new {α : Type} [Zero α] : EventProcessor α :=
  { totalTracksProcessed := 0, totalEnergy := 0 }

/-- Modelled from the spec: `EventProcessor::processEvent` is not among the sources.
For every particle in `event.particles`, add `1` to `totalTracksProcessed` and
`particle.energy()` to `totalEnergy`. -/
def EventProcessor.processEvent {α : Type} [Add α] [Mul α] (sqrt : α → α)
    (self : EventProcessor α) (event : Event α) : EventProcessor α :=
  event.particles.foldl
    (fun s particle =>
      { totalTracksProcessed := s.totalTracksProcessed + 1
        totalEnergy := s.totalEnergy + particle.energy sqrt })
    self

/-- Modelled from the spec: the per-event reduction of `processEvents` is not among
the sources.  A worker reduces one event to its own pair of sums, starting from
zero and sharing no accumulator with the other workers. -/
def eventSubtotal {α : Type} [Zero α] [Add α] [Mul α] (sqrt : α → α)
    (event : Event α) : Nat × α :=
  event.particles.foldl (fun acc particle => (acc.1 + 1, acc.2 + particle.energy sqrt))
    (0, 0)

/-- Modelled from the spec: the combine step of `processEvents` is not among the
sources.  After the join the per-event sums are added to the running totals, one
after the other. -/
def EventProcessor.combine {α : Type} [Add α] (self : EventProcessor α)
    (subtotals : List (Nat × α)) : EventProcessor α :=
  subtotals.foldl
    (fun s sub =>
      { totalTracksProcessed := s.totalTracksProcessed + sub.1
        totalEnergy := s.totalEnergy + sub.2 })
    self

/-- Modelled from the spec: `EventProcessor::processEvents` is not among the
sources.  It computes the per-event sums independently and combines them at a
single point before returning. -/
def EventProcessor.processEvents {α : Type} [Zero α] [Add α] [Mul α] (sqrt : α → α)
    (self : EventProcessor α) (events : List (Event α)) : EventProcessor α :=
  self.combine (events.map (eventSubtotal sqrt))

/-- Modelled from the spec: the per-chunk reduction of `processEvents` is not among
the sources.  A worker reduces the events of its chunk, particle by particle, to its
own pair of sums, starting from zero and sharing no accumulator with the other
workers. -/
def chunkSubtotal {α : Type} [Zero α] [Add α] [Mul α] (sqrt : α → α)
    (chunk : List (Event α)) : Nat × α :=
  chunk.foldl
    (fun acc event =>
      event.particles.foldl (fun acc particle => (acc.1 + 1, acc.2 + particle.energy sqrt)) acc)
    (0, 0)

/-- Modelled from the spec: `processEvents` under a schedule, which the spec leaves
open.  `chunks` is the distribution of the events over the workers, listed in the
order in which the per-chunk sums are combined after the join; `processEvents` above
is the schedule of one chunk per event, in order. -/
def EventProcessor.processEventsWith {α : Type} [Zero α] [Add α] [Mul α] (sqrt : α → α)
    (self : EventProcessor α) (chunks : List (List (Event α))) : EventProcessor α :=
  self.combine (chunks.map (chunkSubtotal sqrt))

/-- The energies of all particles of a list of events, in order. -/
def allEnergies {α : Type} [Add α] [Mul α] (sqrt : α → α) (events : List (Event α)) : List α :=
  (events.flatMap fun e => e.particles).map (Particle.energy sqrt)

/-- Modelled from the spec: `EventProcessor::reset` is not among the sources; it
sets the totals back to zero and there is no other state. -/
def EventProcessor.reset {α : Type} [Zero α] (_self : EventProcessor α) :
    EventProcessor α :=
  { totalTracksProcessed := 0, totalEnergy := 0 }

/-- A call of one of the three mutating member functions of `EventProcessor`. -/
inductive Call (α : Type) where
  | processEvent (event : Event α)
  | processEvents (events : List (Event α))
  | reset

/-- The effect of one call on the state of the processor. -/
def EventProcessor.call {α : Type} [Zero α] [Add α] [Mul α] (sqrt : α → α)
    (self : EventProcessor α) : Call α → EventProcessor α
  | .processEvent event => self.processEvent sqrt event
  | .processEvents events => self.processEvents sqrt events
  | .reset => self.reset

/-- The state after a sequence of calls, made in order. -/
def EventProcessor.run {α : Type} [Zero α] [Add α] [Mul α] (sqrt : α → α)
    (self : EventProcessor α) (calls : List (Call α)) : EventProcessor α :=
  calls.foldl (EventProcessor.call sqrt) self

end csc2026

/-! IEEE 754 binary64, the format of a C++ `double` -/

/-- A `double`.  Every finite double is an integer multiple of `2^-1074`:
`finite neg m` is the value `(-1)^neg * m * 2^-1074` (both zeros are `m = 0`).  The
other values are the two infinities and NaN. -/
inductive F64 where
  | finite (neg : Bool) (m : Nat)
  | inf (neg : Bool)
  | nan
deriving DecidableEq, Repr

namespace F64

/-- Search for the bit length of `n` from `k` upwards. -/
def bitLenAux (n : Nat) : Nat → Nat → Nat
  | 0, k => k
  | fuel + 1, k => if n < 2 ^ k then k else bitLenAux n fuel (k + 1)

/-- The number of binary digits of `n`: the least `k` with `n < 2^k`. -/
def bitLen (n : Nat) : Nat := bitLenAux n n 0

/-- Binary digit-by-digit square root: `r` holds the digits above position `k`. -/
def natSqrtAux (n : Nat) : Nat → Nat → Nat
  | 0, r => r
  | k + 1, r =>
    if (r + 2 ^ k) * (r + 2 ^ k) ≤ n then natSqrtAux n k (r + 2 ^ k) else natSqrtAux n k r

/-- The integer square root of `n`, the largest `t` with `t * t ≤ n`. -/
def natSqrt (n : Nat) : Nat := natSqrtAux n (bitLen n / 2 + 1) 0

/-- Rounding to nearest, ties to even: the exact value is `n * 2^-(1074 + s)`, the
result is the nearest double in units of `2^-1074`.  A double keeps 53 significant
bits and nothing below `2^-1074`, so the lowest `sh` bits of `n` are rounded off. -/
def roundGrid (n s : Nat) : Nat :=
  let sh := max s (bitLen n - 53)
  let q := n / 2 ^ sh
  let r := n % 2 ^ sh
  let up := decide (2 ^ sh < 2 * r) || (decide (2 * r = 2 ^ sh) && decide (q % 2 = 1))
  (if up then q + 1 else q) * 2 ^ (sh - s)

/-- The double of magnitude `g * 2^-1074` after rounding: a magnitude of `2^1024`
or more overflows to infinity. -/
def ofGrid (neg : Bool) (g : Nat) : F64 :=
  if g < 2 ^ 2098 then finite neg g else inf neg

/-- The sum of two doubles (`a + b` in C++), correctly rounded. -/
def add : F64 → F64 → F64
  | nan, _ => nan
  | _, nan => nan
  | inf a, inf b => if a = b then inf a else nan
  | inf a, finite _ _ => inf a
  | finite _ _, inf b => inf b
  | finite a m, finite b n =>
    if a = b then ofGrid a (roundGrid (m + n) 0)
    else if n < m then ofGrid a (roundGrid (m - n) 0)
    else if m < n then ofGrid b (roundGrid (n - m) 0)
    else finite false 0

/-- The product of two doubles (`a * b` in C++), correctly rounded. -/
def mul : F64 → F64 → F64
  | nan, _ => nan
  | _, nan => nan
  | inf a, inf b => inf (a != b)
  | inf a, finite b n => if n = 0 then nan else inf (a != b)
  | finite a m, inf b => if m = 0 then nan else inf (a != b)
  | finite a m, finite b n => ofGrid (a != b) (roundGrid (m * n) 1074)

/-- The square root of a double (`std::sqrt`), correctly rounded as IEEE 754
requires.  For `m * 2^-1074` the root is `sqrt (m * 2^1074) * 2^-1074`; `t` is its
integer part and `sticky` records that digits follow. -/
def sqrt : F64 → F64
  | nan => nan
  | inf neg => if neg then nan else inf false
  | finite neg m =>
    if m = 0 then finite neg 0
    else if neg then nan
    else
      let t := natSqrt (m * 2 ^ 1074)
      let sticky := if t * t = m * 2 ^ 1074 then 0 else 1
      finite false (roundGrid (2 * t + sticky) 1)

/-- The double nearest to the natural number `k`. -/
def ofNat (k : Nat) : F64 := ofGrid false (roundGrid (k * 2 ^ 1074) 0)

/-- The double `0x1.b211b1c70d023p-536`, that is `7636224696176675 * 2^-588`.  Its
exact square is a little less than `11.5 * 2^-1074`. -/
def x0 : F64 := finite false (7636224696176675 * 2 ^ 486)

/-- A stand-in for `std::pow` with the exponent `2.0`, the only exponent the code
passes.  `std::pow` is the C library's function; neither C++ nor IEEE 754 fixes its
rounding.  At `x0` the stand-in returns `12 * 2^-1074`, which is what glibc's `pow`
returns there; at every other argument it returns the correctly rounded square. -/
def libmPow (x y : F64) : F64 :=
  if x = x0 ∧ y = ofNat 2 then finite false 12 else mul x x

/-- The magnitude of a finite double in units of `2^-1074` (`0` for the others). -/
def mag : F64 → Nat
  | finite _ m => m
  | _ => 0

/-- Whether a double is finite (`std::isfinite`). -/
def isFinite : F64 → Bool
  | finite _ _ => true
  | _ => false

/-- The exact sum of the magnitudes of a list of doubles, in units of `2^-1074`. -/
def gridSum (l : List F64) : Nat := (l.map mag).sum

/-- `T` approximates the exact sum `S` after at most `D` roundings. -/
def Near (D : Nat) (S T : ℝ) : Prop :=
  S * (1 - 1 / 2 ^ 53) ^ D ≤ T ∧ T ≤ S * (1 + 1 / 2 ^ 53) ^ D

/-- A double that is NaN, `+∞`, or finite, not negative and below `B * 2^-1074`. -/
def NonNeg (B : Nat) (x : F64) : Prop :=
  x = nan ∨ x = inf false ∨ ∃ m, m < B ∧ x = finite false m

end F64

instance F64.instZero : Zero F64 := ⟨F64.finite false 0⟩

instance F64.instAdd : Add F64 := ⟨F64.add⟩

instance F64.instMul : Mul F64 := ⟨F64.mul⟩

instance (priority := low) F64.instOfNat (k : Nat) : OfNat F64 k := ⟨F64.ofNat k⟩

/-- A computable integer square root (the largest `k ≤ n` with `k * k ≤ n`), used
to evaluate the definitions above on natural numbers. -/
def isqrt (n : Nat) : Nat :=
  (List.range (n + 1)).foldl (fun r k => if k * k ≤ n then k else r) 0

/-! ## The helpers of the binary64 arithmetic -/

namespace F64

theorem bitLenAux_spec (n : Nat) (fuel k : Nat) (h : n < 2 ^ (k + fuel))
    (hk : k = 0 ∨ 2 ^ (k - 1) ≤ n) :
    n < 2 ^ bitLenAux n fuel k
      ∧ (bitLenAux n fuel k = 0 ∨ 2 ^ (bitLenAux n fuel k - 1) ≤ n) := by
  induction fuel generalizing k with
  | zero => exact ⟨by simpa [bitLenAux] using h, by simpa [bitLenAux] using hk⟩
  | succ fuel ih =>
    unfold bitLenAux
    split
    · exact ⟨by assumption, hk⟩
    · rename_i hn
      apply ih (k + 1)
      · rw [Nat.add_right_comm, Nat.add_assoc]; exact h
      · right; simpa using Nat.le_of_not_lt hn

/-- `bitLen n` is the bit length of `n`: `n < 2^(bitLen n)`, and `2^(bitLen n - 1) ≤ n`
unless `n = 0`. -/
theorem bitLen_spec (n : Nat) :
    n < 2 ^ bitLen n ∧ (bitLen n = 0 ∨ 2 ^ (bitLen n - 1) ≤ n) :=
  bitLenAux_spec n n 0 (by rw [Nat.zero_add]; exact Nat.lt_two_pow n) (Or.inl rfl)

theorem natSqrtAux_spec (n : Nat) (k r : Nat) (h1 : r * r ≤ n)
    (h2 : n < (r + 2 ^ k) * (r + 2 ^ k)) :
    natSqrtAux n k r * natSqrtAux n k r ≤ n
      ∧ n < (natSqrtAux n k r + 1) * (natSqrtAux n k r + 1) := by
  induction k generalizing r with
  | zero => exact ⟨by simpa [natSqrtAux] using h1, by simpa [natSqrtAux] using h2⟩
  | succ k ih =>
    unfold natSqrtAux
    split
    · rename_i hc
      apply ih _ hc
      rw [Nat.add_assoc, ← Nat.two_mul, ← Nat.pow_succ']
      exact h2
    · rename_i hc
      exact ih _ h1 (Nat.lt_of_not_le hc)

/-- `natSqrt` is the integer square root. -/
theorem natSqrt_eq (n : Nat) : natSqrt n = Nat.sqrt n := by
  have hb := (bitLen_spec n).1
  have hlt : n < (0 + 2 ^ (bitLen n / 2 + 1)) * (0 + 2 ^ (bitLen n / 2 + 1)) := by
    rw [Nat.zero_add, ← Nat.pow_add]
    exact lt_of_lt_of_le hb (Nat.pow_le_pow_right (by decide) (by omega))
  have h := natSqrtAux_spec n (bitLen n / 2 + 1) 0 (Nat.zero_le _) hlt
  exact Nat.eq_sqrt.mpr h

theorem roundGrid_zero_shift (n : Nat) :
    roundGrid n 0 = 
      (if (decide (2 ^ (bitLen n - 53) < 2 * (n % 2 ^ (bitLen n - 53))) ||
           (decide (2 * (n % 2 ^ (bitLen n - 53)) = 2 ^ (bitLen n - 53)) &&
            decide (n / 2 ^ (bitLen n - 53) % 2 = 1))) = true
       then n / 2 ^ (bitLen n - 53) + 1 else n / 2 ^ (bitLen n - 53)) * 2 ^ (bitLen n - 53) := by
  simp [roundGrid]

/-- Rounding to nearest changes a value by at most the fraction `2^-53` of it. -/
theorem roundGrid_near (n : Nat) :
    2 ^ 53 * n ≤ 2 ^ 53 * roundGrid n 0 + n ∧ 2 ^ 53 * roundGrid n 0 ≤ 2 ^ 53 * n + n := by
  rw [roundGrid_zero_shift]
  obtain ⟨hlt, hge⟩ := bitLen_spec n
  generalize bitLen n = L at hlt hge ⊢
  by_cases hL : L ≤ 53
  · have : L - 53 = 0 := by omega
    simp [this, Nat.mod_one]
  · have hL' : 53 < L := by omega
    obtain ⟨sh, rfl⟩ : ∃ sh, L = sh + 54 := ⟨L - 54, by omega⟩
    have hsh : sh + 54 - 53 = sh + 1 := by omega
    rw [hsh]
    have hge' : 2 ^ (sh + 53) ≤ n := by
      rcases hge with h | h
      · omega
      · simpa using h
    have h2 : 2 ^ (sh + 1) = 2 * 2 ^ sh := by rw [Nat.pow_succ]; ring
    have h53 : 2 ^ (sh + 53) = 2 ^ 53 * 2 ^ sh := by rw [Nat.pow_add]; ring
    rw [h2]
    rw [h53] at hge'
    have hPpos : 0 < 2 ^ sh := Nat.pow_pos (by norm_num)
    generalize 2 ^ sh = P at hge' hPpos ⊢
    have hdm := Nat.div_add_mod n (2 * P)
    have hmod : n % (2 * P) < 2 * P := Nat.mod_lt _ (by omega)
    generalize n / (2 * P) = q at hdm ⊢
    generalize n % (2 * P) = r at hdm hmod ⊢
    subst hdm
    split
    · rename_i hup
      have hr : P ≤ r := by
        simp only [Bool.or_eq_true, Bool.and_eq_true, decide_eq_true_eq] at hup
        rcases hup with h | ⟨h, _⟩ <;> omega
      constructor <;> nlinarith
    · rename_i hup
      have hr : r ≤ P := by
        simp only [Bool.or_eq_true, Bool.and_eq_true, decide_eq_true_eq, not_or, not_and] at hup
        omega
      constructor <;> nlinarith

theorem add_finite_nonneg (a b : Nat) (h : roundGrid (a + b) 0 < 2 ^ 2098) :
    (finite false a + finite false b : F64) = finite false (roundGrid (a + b) 0) := by
  show F64.add (finite false a) (finite false b) = _
  simp only [F64.add, ofGrid, if_pos h, if_true]

theorem pow_lo_le_one (D : Nat) : ((1 : ℝ) - 1 / 2 ^ 53) ^ D ≤ 1 :=
  pow_le_one₀ (by norm_num) (by norm_num)

theorem pow_lo_pos (D : Nat) : (0 : ℝ) < (1 - 1 / 2 ^ 53) ^ D :=
  pow_pos (by norm_num) D

theorem one_le_pow_hi (D : Nat) : (1 : ℝ) ≤ (1 + 1 / 2 ^ 53) ^ D :=
  one_le_pow₀ (by norm_num)

theorem Near.mono {D D' : Nat} {S T : ℝ} (hS : 0 ≤ S) (h : Near D S T) (hD : D ≤ D') :
    Near D' S T := by
  constructor
  · refine le_trans ?_ h.1
    exact mul_le_mul_of_nonneg_left
      (pow_le_pow_of_le_one (by norm_num) (by norm_num) hD) hS
  · refine le_trans h.2 ?_
    exact mul_le_mul_of_nonneg_left (pow_le_pow_right₀ (by norm_num) hD) hS

theorem Near.add {D : Nat} {S₁ T₁ S₂ T₂ : ℝ} (h₁ : Near D S₁ T₁) (h₂ : Near D S₂ T₂) :
    Near D (S₁ + S₂) (T₁ + T₂) := by
  constructor
  · rw [add_mul]; exact add_le_add h₁.1 h₂.1
  · rw [add_mul]; exact add_le_add h₁.2 h₂.2

theorem Near.exact (D : Nat) {m : ℝ} (hm : 0 ≤ m) : Near D m m := by
  constructor
  · exact mul_le_of_le_one_right hm (pow_lo_le_one D)
  · exact le_mul_of_one_le_right hm (one_le_pow_hi D)

theorem Near.round {D : Nat} {S : ℝ} {n : Nat} (h : Near D S n) :
    Near (D + 1) S (roundGrid n 0) := by
  obtain ⟨h1, h2⟩ := roundGrid_near n
  have h1' : (n : ℝ) * (1 - 1 / 2 ^ 53) ≤ (roundGrid n 0 : ℕ) := by
    have : (2 ^ 53 * n : ℝ) ≤ 2 ^ 53 * (roundGrid n 0 : ℕ) + n := by exact_mod_cast h1
    have hpos : (0 : ℝ) < 2 ^ 53 := by positivity
    field_simp
    linarith
  have h2' : ((roundGrid n 0 : ℕ) : ℝ) ≤ n * (1 + 1 / 2 ^ 53) := by
    have : (2 ^ 53 * (roundGrid n 0 : ℕ) : ℝ) ≤ 2 ^ 53 * n + n := by exact_mod_cast h2
    have hpos : (0 : ℝ) < 2 ^ 53 := by positivity
    field_simp
    linarith
  constructor
  · rw [pow_succ, ← mul_assoc]
    refine le_trans ?_ h1'
    exact mul_le_mul_of_nonneg_right h.1 (by norm_num)
  · rw [pow_succ, ← mul_assoc]
    refine le_trans h2' ?_
    exact mul_le_mul_of_nonneg_right h.2 (by norm_num)

/-- Adding doubles that approximate `x.1` by `x.2 * 2^-1074` one after the other to
a running sum: without overflow the result is finite and approximates the exact sum,
one more rounding per addition. -/
theorem foldl_add_near (B : ℝ) (Dmax : Nat) (hB : B * (1 + 1 / 2 ^ 53) ^ Dmax < 2 ^ 2098)
    (D₀ : Nat) (xs : List (ℝ × Nat)) (hx : ∀ x ∈ xs, 0 ≤ x.1 ∧ Near D₀ x.1 x.2)
    (D : Nat) (S : ℝ) (T : Nat) (hS : 0 ≤ S) (hT : Near (D₀ + D) S T)
    (hsum : S + (xs.map Prod.fst).sum ≤ B) (hD : D₀ + D + xs.length ≤ Dmax) :
    ∃ T' : Nat,
      (xs.map fun x => finite false x.2).foldl (fun a b => a + b) (finite false T)
        = finite false T'
      ∧ Near (D₀ + D + xs.length) (S + (xs.map Prod.fst).sum) T' := by
  induction xs generalizing D S T with
  | nil => exact ⟨T, rfl, by simpa using hT⟩
  | cons x xs ih =>
    obtain ⟨hx0, hxN⟩ := hx x (List.mem_cons_self _ _)
    have hrest : ∀ y ∈ xs, 0 ≤ y.1 ∧ Near D₀ y.1 y.2 :=
      fun y hy => hx y (List.mem_cons_of_mem _ hy)
    have hrest0 : 0 ≤ (xs.map Prod.fst).sum :=
      List.sum_nonneg (by
        intro y hy
        obtain ⟨z, hz, rfl⟩ := List.mem_map.mp hy
        exact (hrest z hz).1)
    simp only [List.map_cons, List.sum_cons, List.length_cons] at hsum hD ⊢
    have hstep : Near (D₀ + D + 1) (S + x.1) (roundGrid (T + x.2) 0) := by
      have h1 : Near (D₀ + D) (S + x.1) ((T + x.2 : Nat) : ℝ) := by
        have := Near.add hT (Near.mono hx0 hxN (Nat.le_add_right D₀ D))
        simpa using this
      exact Near.round h1
    have hS' : 0 ≤ S + x.1 := add_nonneg hS hx0
    have hlt : roundGrid (T + x.2) 0 < 2 ^ 2098 := by
      have h2 : ((roundGrid (T + x.2) 0 : Nat) : ℝ) < 2 ^ 2098 := by
        refine lt_of_le_of_lt hstep.2 (lt_of_le_of_lt ?_ hB)
        have hle : S + x.1 ≤ B := by linarith
        have hB0 : 0 ≤ B := le_trans hS' hle
        exact mul_le_mul hle (pow_le_pow_right₀ (by norm_num) (by omega))
          (le_trans zero_le_one (one_le_pow_hi _)) hB0
      exact_mod_cast h2
    rw [List.foldl_cons, add_finite_nonneg _ _ hlt]
    obtain ⟨T', h1, h2⟩ := ih hrest (D + 1) (S + x.1) (roundGrid (T + x.2) 0) hS'
      (by simpa [Nat.add_assoc] using hstep) (by linarith) (by omega)
    refine ⟨T', h1, ?_⟩
    have e1 : D₀ + (D + 1) + xs.length = D₀ + D + (xs.length + 1) := by omega
    rw [e1, add_assoc S] at h2
    exact h2

theorem ofGrid_nonNeg (g : Nat) : NonNeg (2 ^ 2098) (ofGrid false g) := by
  unfold ofGrid
  split
  · exact Or.inr (Or.inr ⟨g, by assumption, rfl⟩)
  · exact Or.inr (Or.inl rfl)

theorem mul_self_nonNeg (x : F64) : NonNeg (2 ^ 2098) (x * x) := by
  show NonNeg _ (F64.mul x x)
  cases x with
  | nan => exact Or.inl rfl
  | inf a => cases a <;> exact Or.inr (Or.inl rfl)
  | finite a m =>
    have : F64.mul (finite a m) (finite a m) = ofGrid false (roundGrid (m * m) 1074) := by
      cases a <;> rfl
    rw [this]; exact ofGrid_nonNeg _

theorem add_nonNeg {B B' : Nat} {x y : F64} (hx : NonNeg B x) (hy : NonNeg B' y) :
    NonNeg (2 ^ 2098) (x + y) := by
  show NonNeg _ (F64.add x y)
  rcases hx with rfl | rfl | ⟨m, -, rfl⟩
  · exact Or.inl (by cases y <;> rfl)
  · rcases hy with rfl | rfl | ⟨n, -, rfl⟩
    · exact Or.inl rfl
    · exact Or.inr (Or.inl rfl)
    · exact Or.inr (Or.inl rfl)
  · rcases hy with rfl | rfl | ⟨n, -, rfl⟩
    · exact Or.inl rfl
    · exact Or.inr (Or.inl rfl)
    · have : F64.add (finite false m) (finite false n) = ofGrid false (roundGrid (m + n) 0) := by
        simp [F64.add]
      rw [this]; exact ofGrid_nonNeg _

theorem roundGrid_le (n s : Nat) : roundGrid n s ≤ 2 * n + 2 ^ s := by
  unfold roundGrid
  simp only
  obtain ⟨-, hge⟩ := bitLen_spec n
  generalize bitLen n = L at hge ⊢
  have hq : n / 2 ^ max s (L - 53) * 2 ^ max s (L - 53) ≤ n := Nat.div_mul_le_self _ _
  have hpow : 2 ^ (max s (L - 53) - s) ≤ 2 ^ max s (L - 53) :=
    Nat.pow_le_pow_right (by decide) (Nat.sub_le _ _)
  have hsh : 2 ^ max s (L - 53) ≤ n + 2 ^ s := by
    rcases le_total s (L - 53) with h | h
    · rw [max_eq_right h]
      rcases hge with h0 | h0
      · subst h0; simp at h; subst h; simp
      · exact le_trans (Nat.pow_le_pow_right (by decide) (by omega)) (le_trans h0 (Nat.le_add_right _ _))
    · rw [max_eq_left h]; exact Nat.le_add_left _ _
  generalize n / 2 ^ max s (L - 53) = q at hq ⊢
  generalize 2 ^ max s (L - 53) = P at hq hpow hsh ⊢
  generalize 2 ^ (max s (L - 53) - s) = P' at hpow ⊢
  have : (if (decide (P < 2 * (n % P)) || decide (2 * (n % P) = P) && decide (q % 2 = 1)) = true
      then q + 1 else q) ≤ q + 1 := by split <;> omega
  calc _ ≤ (q + 1) * P' := Nat.mul_le_mul_right _ this
    _ ≤ (q + 1) * P := Nat.mul_le_mul_left _ hpow
    _ = q * P + P := by ring
    _ ≤ 2 * n + 2 ^ s := by omega

theorem sqrt_nonNeg {x : F64} (hx : NonNeg (2 ^ 2098) x) : NonNeg (2 ^ 1589) (F64.sqrt x) := by
  rcases hx with rfl | rfl | ⟨m, hm, rfl⟩
  · exact Or.inl rfl
  · exact Or.inr (Or.inl rfl)
  · unfold F64.sqrt
    by_cases h0 : m = 0
    · subst h0
      have hpos : 0 < 2 ^ 1589 := pow_pos Nat.zero_lt_two 1589
      exact Or.inr (Or.inr (Exists.intro 0 (And.intro hpos rfl)))
    · simp only [h0, if_false, Bool.false_eq_true]
      refine Or.inr (Or.inr ⟨_, ?_, rfl⟩)
      have ht : natSqrt (m * 2 ^ 1074) < 2 ^ 1586 := by
        rw [natSqrt_eq, Nat.sqrt_lt']
        calc m * 2 ^ 1074 < 2 ^ 2098 * 2 ^ 1074 := Nat.mul_lt_mul_of_pos_right hm (pow_pos Nat.zero_lt_two 1074)
          _ = (2 ^ 1586) ^ 2 := by rw [← pow_add, ← pow_mul]
      generalize natSqrt (m * 2 ^ 1074) = t at ht ⊢
      have hs : (if t * t = m * 2 ^ 1074 then 0 else 1) ≤ 1 := by split <;> omega
      generalize (if t * t = m * 2 ^ 1074 then 0 else 1) = st at hs ⊢
      have := roundGrid_le (2 * t + st) 1
      have e : (2 : Nat) ^ 1589 = 8 * 2 ^ 1586 := by rw [show 1589 = 1586 + 3 from rfl, Nat.pow_add]; ring
      omega

theorem pow_lo_ge (D : Nat) : (1 : ℝ) - D / 2 ^ 53 ≤ (1 - 1 / 2 ^ 53) ^ D := by
  have h := one_add_mul_le_pow (a := (-(1 / 2 ^ 53) : ℝ)) (by norm_num) D
  have e : (1 : ℝ) + D * -(1 / 2 ^ 53) = 1 - D / 2 ^ 53 := by ring
  have e' : (1 : ℝ) + -(1 / 2 ^ 53) = 1 - 1 / 2 ^ 53 := by ring
  rw [e, e'] at h
  exact h

theorem pow_hi_mul_lo_le_one (D : Nat) :
    ((1 : ℝ) + 1 / 2 ^ 53) ^ D * (1 - 1 / 2 ^ 53) ^ D ≤ 1 := by
  rw [← mul_pow]
  exact pow_le_one₀ (by norm_num) (by norm_num)

/-- For at most `2^51` roundings the accumulated factors stay within
`1 + D * 2^-51` of each other. -/
theorem pow_hi_le_lo (D : Nat) (hD : D ≤ 2 ^ 51) :
    ((1 : ℝ) + 1 / 2 ^ 53) ^ D ≤ (1 + D / 2 ^ 51) * (1 - 1 / 2 ^ 53) ^ D := by
  have hx0 : (0 : ℝ) ≤ D / 2 ^ 53 := by positivity
  have hx1 : (D : ℝ) / 2 ^ 53 ≤ 1 / 4 := by
    have : (D : ℝ) ≤ 2 ^ 51 := by exact_mod_cast hD
    rw [div_le_iff₀ (by positivity)]
    linarith
  have hlo := pow_lo_ge D
  have hprod := pow_hi_mul_lo_le_one D
  have hlopos := pow_lo_pos D
  have hhi := one_le_pow_hi D
  have e : (D : ℝ) / 2 ^ 51 = 4 * (D / 2 ^ 53) := by ring
  rw [e]
  generalize (D : ℝ) / 2 ^ 53 = x at hx0 hx1 hlo
  generalize ((1 : ℝ) + 1 / 2 ^ 53) ^ D = hi at hprod hhi ⊢
  generalize ((1 : ℝ) - 1 / 2 ^ 53) ^ D = lo at hlo hprod hlopos ⊢
  -- hi * lo ≤ 1, lo ≥ 1 - x ≥ 3/4, want hi ≤ (1 + 4x) * lo
  have hlo34 : 3 / 4 ≤ lo := by linarith
  have hsq : (1 - x) * (1 - x) ≤ lo * lo :=
    mul_le_mul hlo hlo (by linarith) (by linarith)
  have hpoly : 0 ≤ x * (2 - 7 * x + 4 * (x * x)) :=
    mul_nonneg hx0 (by nlinarith [mul_nonneg hx0 hx0])
  have hcub : 1 ≤ (1 + 4 * x) * ((1 - x) * (1 - x)) := by nlinarith
  have key : 1 ≤ (1 + 4 * x) * lo * lo := by
    rw [mul_assoc]
    exact le_trans hcub (mul_le_mul_of_nonneg_left hsq (by linarith))
  have : hi * lo ≤ (1 + 4 * x) * lo * lo := le_trans hprod key
  have := le_of_mul_le_mul_right this hlopos
  linarith

theorem pow_hi_le_two (D : Nat) (hD : D ≤ 2 ^ 51) : ((1 : ℝ) + 1 / 2 ^ 53) ^ D ≤ 2 := by
  have h := pow_hi_le_lo D hD
  have h1 := pow_lo_le_one D
  have hx1 : (D : ℝ) / 2 ^ 51 ≤ 1 := by
    have : (D : ℝ) ≤ 2 ^ 51 := by exact_mod_cast hD
    rw [div_le_iff₀ (by positivity)]
    linarith
  have hx0 : (0 : ℝ) ≤ D / 2 ^ 51 := by positivity
  have hlopos := pow_lo_pos D
  nlinarith

/-- Two approximations of one exact sum `S`, after at most `D ≤ 2^51` roundings each,
differ by at most the fraction `D * 2^-51` of either. -/
theorem Near.close {N D : Nat} {S a b : ℝ} (hN : N ≤ D) (hD : D ≤ 2 ^ 51) (hS : 0 ≤ S)
    (ha : Near N S a) (hb : Near D S b) : |a - b| ≤ D / 2 ^ 51 * b := by
  have ha' := Near.mono hS ha hN
  have h := pow_hi_le_lo D hD
  have hlopos := pow_lo_pos D
  obtain ⟨a1, a2⟩ := ha'
  obtain ⟨b1, b2⟩ := hb
  have hx0 : (0 : ℝ) ≤ D / 2 ^ 51 := by positivity
  generalize (D : ℝ) / 2 ^ 51 = y at h hx0 ⊢
  generalize ((1 : ℝ) + 1 / 2 ^ 53) ^ D = hi at h a2 b2
  generalize ((1 : ℝ) - 1 / 2 ^ 53) ^ D = lo at h a1 b1 hlopos
  have hShi : S * hi ≤ S * ((1 + y) * lo) := mul_le_mul_of_nonneg_left h hS
  have hyb : y * (S * lo) ≤ y * b := mul_le_mul_of_nonneg_left b1 hx0
  rw [abs_le]
  constructor <;> nlinarith

theorem gridSum_perm {l l' : List F64} (h : l.Perm l') : gridSum l = gridSum l' :=
  (h.map mag).sum_eq

theorem gridSum_le (P : Nat) (l : List F64) (hl : ∀ x ∈ l, mag x < P) :
    gridSum l ≤ l.length * P := by
  unfold gridSum
  induction l with
  | nil => simp
  | cons x xs ih =>
    have h1 := hl _ (List.mem_cons_self _ _)
    have h2 := ih (fun y hy => hl y (List.mem_cons_of_mem _ hy))
    simp only [List.map_cons, List.sum_cons, List.length_cons]
    rw [Nat.add_mul, Nat.one_mul, Nat.add_comm]
    exact Nat.add_le_add h2 (Nat.le_of_lt h1)

theorem two_pow_bound :
    ((2 : ℝ) ^ 51 * 2 ^ 1589) * (1 + 1 / 2 ^ 53) ^ (2 ^ 51) < 2 ^ 2098 := by
  have h := pow_hi_le_two (2 ^ 51) (le_refl _)
  have h2 : ((2 : ℝ) ^ 51 * 2 ^ 1589) * (1 + 1 / 2 ^ 53) ^ (2 ^ 51)
      ≤ (2 ^ 51 * 2 ^ 1589) * 2 :=
    mul_le_mul_of_nonneg_left h (mul_nonneg (pow_nonneg (by norm_num) _) (pow_nonneg (by norm_num) _))
  have h3 : ((2 : ℝ) ^ 51 * 2 ^ 1589) * 2 = 2 ^ (51 + 1589 + 1) := by
    rw [pow_add, pow_add, pow_one]
  have h4 : ((2 : ℝ) ^ (51 + 1589 + 1)) < 2 ^ 2098 :=
    pow_lt_pow_right₀ (by norm_num) (by norm_num)
  rw [h3] at h2
  exact lt_of_le_of_lt h2 h4

theorem gridSum_le_bound (l : List F64) (hl : ∀ x ∈ l, ∃ m, m < 2 ^ 1589 ∧ x = finite false m)
    (hlen : l.length ≤ 2 ^ 51) : ((gridSum l : Nat) : ℝ) ≤ 2 ^ 51 * 2 ^ 1589 := by
  have h0 : gridSum l ≤ l.length * 2 ^ 1589 := by
    apply gridSum_le
    intro x hx
    obtain ⟨m, hm, rfl⟩ := hl x hx
    exact hm
  have h1 : gridSum l ≤ 2 ^ 51 * 2 ^ 1589 := le_trans h0 (Nat.mul_le_mul_right _ hlen)
  have h3 : ((gridSum l : Nat) : ℝ) ≤ ((2 ^ 51 * 2 ^ 1589 : Nat) : ℝ) := Nat.cast_le.mpr h1
  rw [Nat.cast_mul, Nat.cast_pow, Nat.cast_pow] at h3
  exact h3

/-- Adding a list of finite, non-negative doubles from `0.0`: the result is finite
and approximates the exact sum with one rounding per addition. -/
theorem foldl_add_finite (l : List F64) (hl : ∀ x ∈ l, ∃ m, m < 2 ^ 1589 ∧ x = finite false m)
    (hlen : l.length ≤ 2 ^ 51) :
    ∃ T : Nat, l.foldl (fun a b => a + b) 0 = finite false T
      ∧ Near l.length (gridSum l) T := by
  have hmap : (l.map fun x => (((mag x : Nat) : ℝ), mag x)).map (fun x => finite false x.2) = l := by
    rw [List.map_map]
    conv_rhs => rw [← List.map_id l]
    apply List.map_congr_left
    intro x hx
    obtain ⟨m, -, rfl⟩ := hl x hx
    rfl
  have hfst : ((l.map fun x => (((mag x : Nat) : ℝ), mag x)).map Prod.fst).sum
      = ((gridSum l : Nat) : ℝ) := by
    rw [List.map_map, gridSum, Nat.cast_list_sum, List.map_map]
    rfl
  have hB : ((0 : ℝ) + ((l.map fun x => (((mag x : Nat) : ℝ), mag x)).map Prod.fst).sum)
      ≤ 2 ^ 51 * 2 ^ 1589 := by
    rw [hfst, zero_add]
    exact gridSum_le_bound l hl hlen
  have hN0 : Near (0 + 0) (0 : ℝ) ((0 : Nat) : ℝ) := by
    constructor <;> simp
  obtain ⟨T, h1, h2⟩ := foldl_add_near (2 ^ 51 * 2 ^ 1589) (2 ^ 51) two_pow_bound 0
    (l.map fun x => (((mag x : Nat) : ℝ), mag x))
    (by
      intro x hx
      obtain ⟨y, -, rfl⟩ := List.mem_map.mp hx
      exact ⟨Nat.cast_nonneg _, Near.exact 0 (Nat.cast_nonneg _)⟩)
    0 0 0 (le_refl _) hN0 hB
    (by simp only [List.length_map, Nat.zero_add]; exact hlen)
  rw [hmap] at h1
  refine ⟨T, h1, ?_⟩
  have e1 : 0 + 0 + (l.map fun x => (((mag x : Nat) : ℝ), mag x)).length = l.length := by
    rw [List.length_map]; omega
  have e2 : (0 : ℝ) + ((l.map fun x => (((mag x : Nat) : ℝ), mag x)).map Prod.fst).sum
      = ((gridSum l : Nat) : ℝ) := by
    rw [hfst, zero_add]
  rw [e1, e2] at h2
  exact h2

theorem roundGrid_of_dvd (n : Nat) (h : 2 ^ (bitLen n - 53) ∣ n) : roundGrid n 0 = n := by
  rw [roundGrid_zero_shift]
  have hpos : 0 < 2 ^ (bitLen n - 53) := Nat.pow_pos (by decide)
  generalize 2 ^ (bitLen n - 53) = P at h hpos ⊢
  have hmod : n % P = 0 := Nat.mod_eq_zero_of_dvd h
  rw [hmod]
  have : ¬ (decide (P < 2 * 0) || decide (2 * 0 = P) && decide (n / P % 2 = 1)) = true := by
    simp only [Nat.mul_zero, Bool.or_eq_true, Bool.and_eq_true, decide_eq_true_eq, not_or,
      not_and]
    omega
  rw [if_neg this]
  exact Nat.div_mul_cancel h

/-- A value `c * 2^j` with `c ≤ 2^53` is a double: rounding leaves it as it is. -/
theorem roundGrid_exact (c j : Nat) (hc : c ≤ 2 ^ 53) : roundGrid (c * 2 ^ j) 0 = c * 2 ^ j := by
  apply roundGrid_of_dvd
  obtain ⟨hlt, hge⟩ := bitLen_spec (c * 2 ^ j)
  generalize bitLen (c * 2 ^ j) = L at hlt hge ⊢
  by_cases hL : L ≤ 53 + j
  · exact Dvd.dvd.mul_left (Nat.pow_dvd_pow 2 (by omega)) c
  · -- then `c * 2^j ≥ 2^(53 + j)`, so `c = 2^53`
    have hL' : 53 + j ≤ L - 1 := by omega
    have h1 : 2 ^ (53 + j) ≤ c * 2 ^ j := by
      rcases hge with h0 | h0
      · omega
      · exact le_trans (Nat.pow_le_pow_right (by decide) hL') h0
    have h2 : c * 2 ^ j ≤ 2 ^ 53 * 2 ^ j := Nat.mul_le_mul_right _ hc
    rw [← Nat.pow_add] at h2
    have h3 : c * 2 ^ j = 2 ^ (53 + j) := le_antisymm h2 h1
    rw [h3] at hlt ⊢
    have h4 : 53 + j < L := (Nat.pow_lt_pow_iff_right (by decide)).mp hlt
    have h5 : L ≤ 54 + j := by
      rcases hge with h0 | h0
      · omega
      · rw [h3] at h0
        have := (Nat.pow_le_pow_iff_right (by decide)).mp h0
        omega
    exact Nat.pow_dvd_pow 2 (by omega)

theorem add_exact (k n j : Nat) (h : k + n ≤ 2 ^ 53) (hj : 53 + j < 2098) :
    (finite false (k * 2 ^ j) + finite false (n * 2 ^ j) : F64) = finite false ((k + n) * 2 ^ j) := by
  have e : k * 2 ^ j + n * 2 ^ j = (k + n) * 2 ^ j := (Nat.add_mul _ _ _).symm
  have hr : roundGrid (k * 2 ^ j + n * 2 ^ j) 0 = (k + n) * 2 ^ j := by
    rw [e]; exact roundGrid_exact _ _ h
  have hlt : roundGrid (k * 2 ^ j + n * 2 ^ j) 0 < 2 ^ 2098 :=
    calc roundGrid (k * 2 ^ j + n * 2 ^ j) 0 = (k + n) * 2 ^ j := hr
      _ ≤ 2 ^ 53 * 2 ^ j := Nat.mul_le_mul_right _ h
      _ = 2 ^ (53 + j) := (Nat.pow_add 2 53 j).symm
      _ < 2 ^ 2098 := pow_lt_pow_right₀ Nat.one_lt_two hj
  rw [add_finite_nonneg _ _ hlt, hr]


/-- Adding `1.0` to an integer-valued double below `2^53`, `n` times, is exact. -/
theorem foldl_add_one_exact (n k : Nat) (h : k + n ≤ 2 ^ 53) :
    (List.replicate n (finite false (1 * 2 ^ 1074))).foldl (fun a b => a + b)
        (finite false (k * 2 ^ 1074))
      = finite false ((k + n) * 2 ^ 1074) := by
  induction n generalizing k with
  | zero => rfl
  | succ n ih =>
    rw [List.replicate_succ, List.foldl_cons, add_exact k 1 1074 (by omega) (by decide),
      ih (k + 1) (by omega)]
    congr 2
    omega

theorem add_one_stagnates :
    (finite false (2 ^ 53 * 2 ^ 1074) + finite false (1 * 2 ^ 1074) : F64)
      = finite false (2 ^ 53 * 2 ^ 1074) := by
  decide!

/-- At `2^53` adding `1.0` changes nothing: `2^53 + 1` rounds back to `2^53`. -/
theorem foldl_add_one_stagnates (n : Nat) :
    (List.replicate n (finite false (1 * 2 ^ 1074))).foldl (fun a b => a + b)
        (finite false (2 ^ 53 * 2 ^ 1074))
      = finite false (2 ^ 53 * 2 ^ 1074) := by
  induction n with
  | zero => rfl
  | succ n ih => rw [List.replicate_succ, List.foldl_cons, add_one_stagnates, ih]

end F64

/-! ## `std::vector::resize` -/

namespace sd_e2

theorem vectorResize_ok_iff {β : Type} (max_size : Nat) (canGrow : Bool) (d : β)
    (v : List β) (n : Nat) :
    (∃ w, vectorResize max_size canGrow d v n = .ok w)
      ↔ (n ≤ v.length ∨ (n ≤ max_size ∧ canGrow = true)) := by
  unfold vectorResize
  by_cases h1 : n ≤ v.length
  · simp [h1]
  · by_cases h2 : max_size < n
    · simp [h1, h2]
    · have h3 : n ≤ max_size := Nat.le_of_not_lt h2
      cases canGrow <;> simp [h1, h2, h3]

theorem vectorResize_length {β : Type} (max_size : Nat) (canGrow : Bool) (d : β)
    (v w : List β) (n : Nat) (h : vectorResize max_size canGrow d v n = .ok w) :
    w.length = n := by
  unfold vectorResize at h
  split at h
  · cases h; rw [List.length_take]; omega
  · split at h
    · cases h
    · split at h
      · cases h; rw [List.length_append, List.length_replicate]; omega
      · cases h

theorem vectorResize_getElem?_kept {β : Type} (max_size : Nat) (canGrow : Bool) (d : β)
    (v w : List β) (n i : Nat) (h : vectorResize max_size canGrow d v n = .ok w)
    (hi : i < min v.length n) : w[i]? = v[i]? := by
  have h1 : i < v.length := lt_of_lt_of_le hi (min_le_left _ _)
  have h2 : i < n := lt_of_lt_of_le hi (min_le_right _ _)
  unfold vectorResize at h
  split at h
  · cases h; rw [List.getElem?_take_of_lt h2]
  · split at h
    · cases h
    · split at h
      · cases h; rw [List.getElem?_append_left h1]
      · cases h

theorem vectorResize_getElem?_fresh {β : Type} (max_size : Nat) (canGrow : Bool) (d : β)
    (v w : List β) (n i : Nat) (h : vectorResize max_size canGrow d v n = .ok w)
    (h1 : v.length ≤ i) (h2 : i < n) : w[i]? = some d := by
  unfold vectorResize at h
  split at h
  · omega
  · split at h
    · cases h
    · split at h
      · cases h
        rw [List.getElem?_append_right h1, List.getElem?_replicate]
        rw [if_pos (by omega)]
      · cases h

theorem vectorResize_zero {β : Type} (max_size : Nat) (canGrow : Bool) (d : β)
    (v : List β) : vectorResize max_size canGrow d v 0 = .ok [] := by
  simp [vectorResize]

theorem vectorResize_length_error {β : Type} (max_size : Nat) (canGrow : Bool) (d : β)
    (v : List β) (n : Nat) (h1 : v.length < n) (h2 : max_size < n) :
    vectorResize max_size canGrow d v n = .error .length_error := by
  unfold vectorResize
  rw [if_neg (by omega), if_pos h2]

/-- What a `ParticlesAoS::resize` that returns normally has done. -/
theorem aos_resize_ok {α : Type} [Zero α] (max_size : Nat) (canGrow : Bool)
    (a : ParticlesAoS α) (n : Nat) (h : (a.resize max_size canGrow n).2 = none) :
    vectorResize max_size canGrow ParticleAoS.init a.particles n
      = .ok (a.resize max_size canGrow n).1.particles := by
  unfold ParticlesAoS.resize at h ⊢
  cases hv : vectorResize max_size canGrow ParticleAoS.init a.particles n with
  | error e => rw [hv] at h; cases h
  | ok w => rfl

/-- What a `ParticlesSoA::resize` that returns normally has done: each of the four
vector resizes succeeded, on the old contents of its vector. -/
theorem soa_resize_ok {α : Type} [Zero α] (max_size : Nat) (canGrow : Nat → Bool)
    (s : ParticlesSoA α) (n : Nat) (h : (s.resize max_size canGrow n).2 = none) :
    vectorResize max_size (canGrow 0) 0 s.px n = .ok (s.resize max_size canGrow n).1.px
    ∧ vectorResize max_size (canGrow 1) 0 s.py n = .ok (s.resize max_size canGrow n).1.py
    ∧ vectorResize max_size (canGrow 2) 0 s.pz n = .ok (s.resize max_size canGrow n).1.pz
    ∧ vectorResize max_size (canGrow 3) 0 s.mass n
        = .ok (s.resize max_size canGrow n).1.mass := by
  unfold ParticlesSoA.resize at h ⊢
  cases h0 : vectorResize max_size (canGrow 0) 0 s.px n with
  | error e => rw [h0] at h; cases h
  | ok px =>
    cases h1 : vectorResize max_size (canGrow 1) 0 s.py n with
    | error e => rw [h0, h1] at h; cases h
    | ok py =>
      cases h2 : vectorResize max_size (canGrow 2) 0 s.pz n with
      | error e => rw [h0, h1, h2] at h; cases h
      | ok pz =>
        cases h3 : vectorResize max_size (canGrow 3) 0 s.mass n with
        | error e => rw [h0, h1, h2, h3] at h; cases h
        | ok mass => exact ⟨rfl, rfl, rfl, rfl⟩

/-- `ParticlesSoA::resize` returns normally when each of its four vector resizes
can succeed. -/
theorem soa_resize_returns {α : Type} [Zero α] (max_size : Nat) (canGrow : Nat → Bool)
    (s : ParticlesSoA α) (n : Nat)
    (hx : n ≤ s.px.length ∨ (n ≤ max_size ∧ canGrow 0 = true))
    (hy : n ≤ s.py.length ∨ (n ≤ max_size ∧ canGrow 1 = true))
    (hz : n ≤ s.pz.length ∨ (n ≤ max_size ∧ canGrow 2 = true))
    (hm : n ≤ s.mass.length ∨ (n ≤ max_size ∧ canGrow 3 = true)) :
    (s.resize max_size canGrow n).2 = none := by
  obtain ⟨px, h0⟩ := (vectorResize_ok_iff max_size (canGrow 0) (0 : α) s.px n).mpr hx
  obtain ⟨py, h1⟩ := (vectorResize_ok_iff max_size (canGrow 1) (0 : α) s.py n).mpr hy
  obtain ⟨pz, h2⟩ := (vectorResize_ok_iff max_size (canGrow 2) (0 : α) s.pz n).mpr hz
  obtain ⟨mass, h3⟩ := (vectorResize_ok_iff max_size (canGrow 3) (0 : α) s.mass n).mpr hm
  unfold ParticlesSoA.resize
  rw [h0, h1, h2, h3]

/-! ## The two energy sums -/

theorem leftSum_congr {α : Type} [Zero α] [Add α] (e e' : Nat → α) (n : Nat)
    (h : ∀ i, i < n → e i = e' i) : leftSum e n = leftSum e' n := by
  induction n with
  | zero => rfl
  | succ k ih =>
    simp only [leftSum]
    rw [ih (fun i hi => h i (Nat.lt_succ_of_lt hi)), h k (Nat.lt_succ_self k)]

theorem foldl_energy_eq_leftSum {α : Type} [Zero α] [Add α] [Mul α] (sqrt : α → α)
    (l : List (ParticleAoS α)) :
    ParticlesAoS.sumEnergy sqrt ⟨l⟩ = leftSum (ParticlesAoS.energyAt sqrt ⟨l⟩) l.length := by
  induction l using List.reverseRecOn with
  | nil => rfl
  | append_singleton l p ih =>
    have hprev : leftSum (ParticlesAoS.energyAt sqrt ⟨l ++ [p]⟩) l.length
        = leftSum (ParticlesAoS.energyAt sqrt ⟨l⟩) l.length := by
      apply leftSum_congr
      intro i hi
      simp only [ParticlesAoS.energyAt]
      rw [List.getElem?_append_left hi]
    have hlast : ParticlesAoS.energyAt sqrt ⟨l ++ [p]⟩ l.length
        = sqrt (p.px * p.px + p.py * p.py + p.pz * p.pz + p.mass * p.mass) := by
      simp [ParticlesAoS.energyAt]
    rw [List.length_append, List.length_singleton]
    simp only [leftSum]
    rw [hprev, hlast, ← ih]
    simp [ParticlesAoS.sumEnergy, List.foldl_append]

/-- The first `k` iterations of the SoA loop compute what the AoS loop computes on
the first `k` tuples. -/
theorem soa_loop_firstK {α : Type} [Zero α] [Add α] [Mul α] [OfNat α 2]
    (pow : α → α → α) (sqrt : α → α) (hpow : ∀ x, pow x 2 = x * x)
    (l : List (α × α × α × α)) (init : α) (k : Nat) (hk : k ≤ l.length) :
    (List.range k).foldlM ((ParticlesSoA.ofTuples l).sumEnergyStep pow sqrt two) init
      = some ((l.take k).foldl
          (fun sum t => sum + sqrt (t.1 * t.1 + t.2.1 * t.2.1 + t.2.2.1 * t.2.2.1
            + t.2.2.2 * t.2.2.2)) init) := by
  induction k with
  | zero => rfl
  | succ k ih =>
    have hlt : k < l.length := hk
    rw [List.range_succ, List.foldlM_append, ih (Nat.le_of_lt hlt)]
    have htake : l.take (k + 1) = l.take k ++ [l[k]] := by
      rw [List.take_succ, List.getElem?_eq_getElem hlt]; rfl
    rw [htake, List.foldl_append]
    simp [ParticlesSoA.sumEnergyStep, ParticlesSoA.ofTuples, List.getElem?_eq_getElem hlt,
      two, hpow]

/-- Every SoA collection whose four arrays have one common length is read in
bounds by `sumEnergy`, which then returns a value. -/
theorem soa_sumEnergy_isSome_of_lengths {α : Type} [Zero α] [Add α] [OfNat α 2]
    (pow : α → α → α) (sqrt : α → α) (t : ParticlesSoA α)
    (hy : t.py.length = t.px.length) (hz : t.pz.length = t.px.length)
    (hm : t.mass.length = t.px.length) : (t.sumEnergy pow sqrt).isSome = true := by
  have key : ∀ (k : Nat) (init : α), k ≤ t.px.length →
      ((List.range k).foldlM (t.sumEnergyStep pow sqrt two) init).isSome = true := by
    intro k
    induction k with
    | zero => intro init _; rfl
    | succ k ih =>
      intro init hk
      have hx : k < t.px.length := hk
      rw [List.range_succ, List.foldlM_append]
      obtain ⟨v, hv⟩ := Option.isSome_iff_exists.mp (ih init (Nat.le_of_lt hx))
      rw [hv]
      simp [ParticlesSoA.sumEnergyStep, List.getElem?_eq_getElem hx,
        List.getElem?_eq_getElem (hy ▸ hx), List.getElem?_eq_getElem (hz ▸ hx),
        List.getElem?_eq_getElem (hm ▸ hx)]
  exact key _ _ (Nat.le_refl _)

/-- Claim C4. For every `ParticlesAoS` collection, `sumEnergy()` is the left-to-right
sum, starting from `0.0` and taken in index order over all entries, of
`sqrt(px_i² + py_i² + pz_i² + mass_i²)`. -/
theorem aos_sumEnergy_eq_leftSum {α : Type} [Zero α] [Add α] [Mul α] (sqrt : α → α)
    (a : ParticlesAoS α) :
    a.sumEnergy sqrt = leftSum (a.energyAt sqrt) a.particles.length :=
  foldl_energy_eq_leftSum sqrt a.particles

/-- Claim C6. For both layouts and for every prior content, `resize(0)` returns
normally and `sumEnergy()` after it returns exactly `0.0`; and `sumEnergy()` on an
empty collection returns exactly `0.0`. -/
theorem sumEnergy_empty {α : Type} [Zero α] [Add α] [Mul α] [OfNat α 2]
    (pow : α → α → α) (sqrt : α → α) (maxAoS maxSoA : Nat) (canGrow : Bool)
    (canGrowSoA : Nat → Bool) (a : ParticlesAoS α) (s : ParticlesSoA α) :
    ((a.resize maxAoS canGrow 0).2 = none
      ∧ (a.resize maxAoS canGrow 0).1.sumEnergy sqrt = 0)
    ∧ ((s.resize maxSoA canGrowSoA 0).2 = none
      ∧ (s.resize maxSoA canGrowSoA 0).1.sumEnergy pow sqrt = some 0)
    ∧ (a.particles = [] → a.sumEnergy sqrt = 0)
    ∧ (s.px = [] → s.sumEnergy pow sqrt = some 0) := by
  refine ⟨?_, ?_, ?_, ?_⟩
  · simp [ParticlesAoS.resize, ParticlesAoS.sumEnergy, vectorResize_zero]
  · simp [ParticlesSoA.resize, ParticlesSoA.sumEnergy, vectorResize_zero]
  · intro h; simp [ParticlesAoS.sumEnergy, h]
  · intro h; simp [ParticlesSoA.sumEnergy, h]

theorem sumEnergy_empty_witness :
    ((ParticlesAoS.resize (2 ^ 58 - 1) false ⟨[⟨(3 : ℕ), 4, 0, 0⟩]⟩ 0).2 = none
      ∧ (ParticlesAoS.resize (2 ^ 58 - 1) false ⟨[⟨(3 : ℕ), 4, 0, 0⟩]⟩ 0).1.sumEnergy isqrt = 0)
    ∧ ((ParticlesSoA.resize (2 ^ 60 - 1) (fun _ => false) ⟨[(3 : ℕ)], [4], [0], [0]⟩ 0).2 = none
      ∧ (ParticlesSoA.resize (2 ^ 60 - 1) (fun _ => false)
          ⟨[(3 : ℕ)], [4], [0], [0]⟩ 0).1.sumEnergy (fun x y => x ^ y) isqrt = some 0)
    ∧ (ParticlesAoS.mk ([] : List (ParticleAoS ℕ))).sumEnergy isqrt = 0
    ∧ (ParticlesSoA.mk ([] : List ℕ) [] [] []).sumEnergy (fun x y => x ^ y) isqrt = some 0 :=
  ⟨(sumEnergy_empty (fun x y => x ^ y) isqrt (2 ^ 58 - 1) (2 ^ 60 - 1) false (fun _ => false)
      ⟨[⟨(3 : ℕ), 4, 0, 0⟩]⟩ ⟨[3], [4], [0], [0]⟩).1,
   (sumEnergy_empty (fun x y => x ^ y) isqrt (2 ^ 58 - 1) (2 ^ 60 - 1) false (fun _ => false)
      ⟨[⟨(3 : ℕ), 4, 0, 0⟩]⟩ ⟨[3], [4], [0], [0]⟩).2.1,
   (sumEnergy_empty (fun x y => x ^ y) isqrt 0 0 false (fun _ => false)
      ⟨[]⟩ ⟨[], [], [], []⟩).2.2.1 rfl,
   (sumEnergy_empty (fun x y => x ^ y) isqrt 0 0 false (fun _ => false)
      ⟨[]⟩ ⟨[], [], [], []⟩).2.2.2 rfl⟩

end sd_e2

/-! ## Track reconstruction -/

namespace tt_e1

theorem addHit_foldl {Hit α : Type} (hs : List Hit) (r : TrackReconstructor Hit α) :
    hs.foldl TrackReconstructor.addHit r = { m_minPt := r.m_minPt, m_hits := r.m_hits ++ hs } := by
  induction hs generalizing r with
  | nil => simp
  | cons h hs ih => rw [List.foldl_cons, ih]; simp [TrackReconstructor.addHit]

/-- After `k` iterations the copy loop has assigned the first `k` elements of the
allocation, in order, and nothing else. -/
theorem copyHits_firstK {Hit : Type} (hits : List Hit) (k : Nat) (hk : k ≤ hits.length) :
    (List.range k).foldlM
        (fun (hitBuffer : HitBuffer Hit) i => do
          let h ← hits[i]?
          hitBuffer.write i h)
        (HitBuffer.alloc hits.length)
      = some { cells := (hits.take k).map some ++ List.replicate (hits.length - k) none
               written := List.range k } := by
  induction k with
  | zero => simp [HitBuffer.alloc]
  | succ k ih =>
    have hlt : k < hits.length := hk
    have htake : hits.take (k + 1) = hits.take k ++ [hits[k]] := by
      rw [List.take_succ, List.getElem?_eq_getElem hlt]; rfl
    have hrep : List.replicate (hits.length - k) (none : Option Hit)
        = none :: List.replicate (hits.length - (k + 1)) none := by
      rw [← List.replicate_succ]; congr 1; omega
    have hlen : ((hits.take k).map some).length = k := by
      rw [List.length_map, List.length_take]; omega
    rw [List.range_succ, List.foldlM_append, ih (Nat.le_of_lt hlt)]
    have hin : k < ((hits.take k).map some
        ++ List.replicate (hits.length - k) (none : Option Hit)).length := by
      rw [List.length_append, hlen, List.length_replicate]; omega
    simp only [List.foldlM, Option.some_bind, Option.bind_eq_bind, bind_pure,
      List.getElem?_eq_getElem hlt, HitBuffer.write, if_pos hin]
    rw [List.set_append_right k _ (by rw [hlen]), hlen, Nat.sub_self, hrep, List.set_cons_zero,
      htake, List.map_append, List.append_assoc]
    rfl

theorem copyHits_eq {Hit α : Type} (r : TrackReconstructor Hit α) :
    r.copyHits
      = some { cells := r.m_hits.map some, written := List.range r.m_hits.length } := by
  have h := copyHits_firstK r.m_hits r.m_hits.length (Nat.le_refl _)
  rw [List.take_length, Nat.sub_self, List.replicate_zero, List.append_nil] at h
  exact h

theorem reconstruct_eq {Hit α : Type} [OfScientific α] (r : TrackReconstructor Hit α) :
    r.reconstruct
      = some (if r.m_hits.isEmpty then [] else [{ pt := 10.0, hits := r.m_hits }], r) := by
  simp only [TrackReconstructor.reconstruct, copyHits_eq]
  cases h : r.m_hits <;> simp

/-- Claim C8, the statement that fails. With two hits stored, the copy loop of
`reconstruct` completes inside the allocation of two elements: it assigns the indices
`0` and `1` and never the index `2 = m_hits.size()`. -/
theorem copyHits_two_hits :
    (TrackReconstructor.mk (1 : ℚ) [(7 : ℕ), 8]).copyHits
      = some { cells := [some 7, some 8], written := [0, 1] }
    ∧ ((TrackReconstructor.mk (1 : ℚ) [(7 : ℕ), 8]).copyHits.map fun buf =>
        decide ((TrackReconstructor.mk (1 : ℚ) [(7 : ℕ), 8]).m_hits.length ∈ buf.written))
      = some false := by
  decide

/-- Claim C8, amended. The copy loop of `reconstruct` iterates with
`i < m_hits.size()`: it completes without leaving the allocation of `m_hits.size()`
elements, the indices it assigns are exactly `0, ..., m_hits.size() - 1` in order,
each below the size of the allocation, and the index `m_hits.size()` is not among
them; afterwards element `i` of the allocation holds `m_hits[i]`. -/
theorem copyHits_in_bounds {Hit α : Type} (r : TrackReconstructor Hit α) :
    ∃ buf : HitBuffer Hit, r.copyHits = some buf
      ∧ buf.cells.length = r.m_hits.length
      ∧ buf.written = List.range r.m_hits.length
      ∧ (∀ i ∈ buf.written, i < buf.cells.length)
      ∧ r.m_hits.length ∉ buf.written
      ∧ buf.cells = r.m_hits.map some := by
  refine ⟨_, copyHits_eq r, ?_, rfl, ?_, ?_, rfl⟩
  · simp
  · intro i hi
    simpa using hi
  · simp

theorem copyHits_in_bounds_witness :
    ∃ buf : HitBuffer ℕ, (TrackReconstructor.mk (1 : ℚ) [(7 : ℕ), 8, 9]).copyHits = some buf
      ∧ buf.cells.length = 3
      ∧ buf.written = [0, 1, 2]
      ∧ (∀ i ∈ buf.written, i < buf.cells.length)
      ∧ 3 ∉ buf.written
      ∧ buf.cells = [some 7, some 8, some 9] :=
  copyHits_in_bounds (TrackReconstructor.mk (1 : ℚ) [(7 : ℕ), 8, 9])

/-- Claim C10. For every sequence of `addHit` calls on a `TrackReconstructor`,
`reconstruct()` returns an empty list if and only if no hit was added; otherwise it
returns exactly one track whose `pt` is `10.0` and whose hits are all the added hits
in insertion order, whatever `minPt` is; and `reconstruct()` leaves the stored hits
unchanged, so a second call returns the same result. -/
theorem reconstruct_spec {Hit α : Type} [OfScientific α] (minPt : α) (hs : List Hit) :
    ∃ tracks : List (Track Hit α),
      (hs.foldl TrackReconstructor.addHit (TrackReconstructor.new minPt)).reconstruct
        = some (tracks, hs.foldl TrackReconstructor.addHit (TrackReconstructor.new minPt))
      ∧ (tracks = [] ↔ hs = [])
      ∧ (hs ≠ [] → tracks = [{ pt := 10.0, hits := hs }])
      ∧ (∀ minPt' : α,
          ((hs.foldl TrackReconstructor.addHit (TrackReconstructor.new minPt')).reconstruct).map
            Prod.fst = some tracks)
      ∧ (hs.foldl TrackReconstructor.addHit (TrackReconstructor.new minPt)).m_hits = hs
      ∧ ((hs.foldl TrackReconstructor.addHit (TrackReconstructor.new minPt)).reconstruct.bind
          fun first => first.2.reconstruct)
        = some (tracks, hs.foldl TrackReconstructor.addHit (TrackReconstructor.new minPt)) := by
  refine ⟨if hs.isEmpty then [] else [{ pt := 10.0, hits := hs }], ?_, ?_, ?_, ?_, ?_, ?_⟩
  · rw [reconstruct_eq, addHit_foldl]; simp [TrackReconstructor.new]
  · cases hs <;> simp
  · intro h; cases hs <;> simp at h ⊢
  · intro minPt'
    rw [reconstruct_eq, addHit_foldl]; simp [TrackReconstructor.new]
  · rw [addHit_foldl]; simp [TrackReconstructor.new]
  · rw [reconstruct_eq, Option.some_bind, reconstruct_eq, addHit_foldl]
    simp [TrackReconstructor.new]

theorem reconstruct_spec_witness :
    ([(7 : ℕ), 8] ≠ []) ∧
    ∃ tracks : List (Track ℕ ℚ),
      (((TrackReconstructor.new (1 : ℚ)).addHit 7).addHit 8).reconstruct
        = some (tracks, ((TrackReconstructor.new (1 : ℚ)).addHit 7).addHit 8)
      ∧ tracks = [{ pt := 10.0, hits := [7, 8] }] := by
  obtain ⟨tracks, h1, _, h3, _⟩ := reconstruct_spec (1 : ℚ) [(7 : ℕ), 8]
  exact ⟨by decide, tracks, h1, h3 (by decide)⟩

end tt_e1

/-! ## Event aggregation -/

namespace csc2026

theorem foldl_add_eq_add_sum {α : Type} [Zero α] [Add α]
    (hassoc : ∀ a b c : α, a + b + c = a + (b + c)) (hzero : ∀ a : α, a + 0 = a)
    (l : List α) (s : α) : l.foldl (fun x y => x + y) s = s + l.sum := by
  induction l generalizing s with
  | nil => simp [hzero]
  | cons e es ih => rw [List.foldl_cons, ih, List.sum_cons, hassoc]

/-- Without any law of addition: `processEvent` counts the particles and adds their
energies to `totalEnergy` one after the other. -/
theorem processEvent_eq_foldl {α : Type} [Add α] [Mul α] (sqrt : α → α)
    (s : EventProcessor α) (event : Event α) :
    s.processEvent sqrt event
      = { totalTracksProcessed := s.totalTracksProcessed + event.particles.length
          totalEnergy := (event.particles.map (Particle.energy sqrt)).foldl
            (fun x y => x + y) s.totalEnergy } := by
  unfold EventProcessor.processEvent
  generalize event.particles = ps
  induction ps generalizing s with
  | nil => rfl
  | cons p ps ih =>
    rw [List.foldl_cons, ih]
    simp only [List.length_cons, List.map_cons, List.foldl_cons, Nat.add_assoc,
      Nat.add_comm 1 ps.length]

theorem allEnergies_cons {α : Type} [Add α] [Mul α] (sqrt : α → α) (e : Event α)
    (es : List (Event α)) :
    allEnergies sqrt (e :: es) = e.particles.map (Particle.energy sqrt) ++ allEnergies sqrt es := by
  simp [allEnergies]

/-- Without any law of addition: the sequential run adds all energies to the total
one after the other. -/
theorem foldl_processEvent_eq {α : Type} [Add α] [Mul α] (sqrt : α → α)
    (events : List (Event α)) (s : EventProcessor α) :
    events.foldl (EventProcessor.processEvent sqrt) s
      = { totalTracksProcessed := s.totalTracksProcessed + (allEnergies sqrt events).length
          totalEnergy := (allEnergies sqrt events).foldl (fun x y => x + y) s.totalEnergy } := by
  induction events generalizing s with
  | nil => rfl
  | cons e es ih =>
    rw [List.foldl_cons, ih, processEvent_eq_foldl, allEnergies_cons]
    simp only [List.length_append, List.length_map, List.foldl_append, Nat.add_assoc]

theorem chunkSubtotal_eq {α : Type} [Zero α] [Add α] [Mul α] (sqrt : α → α)
    (chunk : List (Event α)) :
    chunkSubtotal sqrt chunk
      = ((allEnergies sqrt chunk).length,
          (allEnergies sqrt chunk).foldl (fun x y => x + y) 0) := by
  have inner : ∀ (ps : List (Particle α)) (acc : Nat × α),
      ps.foldl (fun acc particle => (acc.1 + 1, acc.2 + particle.energy sqrt)) acc
        = (acc.1 + ps.length, (ps.map (Particle.energy sqrt)).foldl (fun x y => x + y) acc.2) := by
    intro ps
    induction ps with
    | nil => intro acc; rfl
    | cons p ps ih =>
      intro acc
      rw [List.foldl_cons, ih]
      simp only [List.length_cons, List.map_cons, List.foldl_cons, Nat.add_assoc,
        Nat.add_comm 1 ps.length]
  have outer : ∀ (es : List (Event α)) (acc : Nat × α),
      es.foldl (fun acc event =>
          event.particles.foldl
            (fun acc particle => (acc.1 + 1, acc.2 + particle.energy sqrt)) acc) acc
        = (acc.1 + (allEnergies sqrt es).length,
            (allEnergies sqrt es).foldl (fun x y => x + y) acc.2) := by
    intro es
    induction es with
    | nil => intro acc; rfl
    | cons e es ih =>
      intro acc
      rw [List.foldl_cons, ih, inner, allEnergies_cons]
      simp only [List.length_append, List.length_map, List.foldl_append, Nat.add_assoc]
  rw [chunkSubtotal, outer]
  simp

theorem combine_eq {α : Type} [Add α] (s : EventProcessor α) (subs : List (Nat × α)) :
    s.combine subs
      = { totalTracksProcessed := s.totalTracksProcessed + (subs.map Prod.fst).sum
          totalEnergy := (subs.map Prod.snd).foldl (fun x y => x + y) s.totalEnergy } := by
  unfold EventProcessor.combine
  induction subs generalizing s with
  | nil => rfl
  | cons x xs ih =>
    rw [List.foldl_cons, ih]
    simp only [List.map_cons, List.sum_cons, List.foldl_cons, Nat.add_assoc]

theorem allEnergies_flatten {α : Type} [Add α] [Mul α] (sqrt : α → α)
    (chunks : List (List (Event α))) :
    allEnergies sqrt chunks.flatten = (chunks.map (allEnergies sqrt)).flatten := by
  induction chunks with
  | nil => rfl
  | cons c cs ih =>
    simp only [List.flatten_cons, List.map_cons]
    rw [← ih]
    simp [allEnergies]

theorem allEnergies_perm {α : Type} [Add α] [Mul α] (sqrt : α → α)
    {es es' : List (Event α)} (h : es.Perm es') :
    (allEnergies sqrt es).Perm (allEnergies sqrt es') :=
  (h.flatMap_right _).map _

/-- The per-event schedule is the schedule of one-event chunks. -/
theorem processEvents_eq_with {α : Type} [Zero α] [Add α] [Mul α] (sqrt : α → α)
    (s : EventProcessor α) (events : List (Event α)) :
    s.processEvents sqrt events = s.processEventsWith sqrt (events.map fun e => [e]) := by
  unfold EventProcessor.processEvents EventProcessor.processEventsWith
  rw [List.map_map]
  rfl

/-- Whatever the schedule, both runs count the same tracks. -/
theorem tracks_consistent {α : Type} [Zero α] [Add α] [Mul α] (sqrt : α → α)
    (events : List (Event α)) (chunks : List (List (Event α)))
    (hperm : chunks.flatten.Perm events) :
    (events.foldl (EventProcessor.processEvent sqrt) EventProcessor.new).totalTracksProcessed
      = (EventProcessor.new.processEventsWith sqrt chunks).totalTracksProcessed := by
  rw [foldl_processEvent_eq, EventProcessor.processEventsWith, combine_eq]
  simp only [EventProcessor.new, Nat.zero_add, List.map_map]
  rw [← (allEnergies_perm sqrt hperm).length_eq, allEnergies_flatten, List.length_flatten,
    List.map_map]
  congr 1
  apply List.map_congr_left
  intro c _
  simp [chunkSubtotal_eq]

theorem foldl_add_zero_start {α : Type} [Zero α] [Add α]
    (hassoc : ∀ a b c : α, a + b + c = a + (b + c)) (hcomm : ∀ a b : α, a + b = b + a)
    (hzero : ∀ a : α, a + 0 = a) (l : List α) (s : α) :
    l.foldl (fun x y => x + y) s = s + l.foldl (fun x y => x + y) 0 := by
  rw [foldl_add_eq_add_sum hassoc hzero, foldl_add_eq_add_sum hassoc hzero l 0,
    hcomm 0, hzero]

theorem foldl_add_subtotals {α : Type} [Zero α] [Add α]
    (hassoc : ∀ a b c : α, a + b + c = a + (b + c)) (hcomm : ∀ a b : α, a + b = b + a)
    (hzero : ∀ a : α, a + 0 = a) (ls : List (List α)) (s : α) :
    (ls.map fun l => l.foldl (fun x y => x + y) 0).foldl (fun x y => x + y) s
      = ls.flatten.foldl (fun x y => x + y) s := by
  induction ls generalizing s with
  | nil => rfl
  | cons l ls ih =>
    rw [List.map_cons, List.foldl_cons, ih, List.flatten_cons, List.foldl_append,
      ← foldl_add_zero_start hassoc hcomm hzero]

/-- With exact addition, whatever the schedule, both runs reach the same total
energy. -/
theorem energy_consistent_exact {α : Type} [Zero α] [Add α] [Mul α] (sqrt : α → α)
    (events : List (Event α)) (chunks : List (List (Event α)))
    (hperm : chunks.flatten.Perm events)
    (hassoc : ∀ a b c : α, a + b + c = a + (b + c)) (hcomm : ∀ a b : α, a + b = b + a)
    (hzero : ∀ a : α, a + 0 = a) :
    (events.foldl (EventProcessor.processEvent sqrt) EventProcessor.new).totalEnergy
      = (EventProcessor.new.processEventsWith sqrt chunks).totalEnergy := by
  rw [foldl_processEvent_eq, EventProcessor.processEventsWith, combine_eq]
  simp only [EventProcessor.new, List.map_map]
  have e : (chunks.map (Prod.snd ∘ chunkSubtotal sqrt))
      = (chunks.map (allEnergies sqrt)).map fun l => l.foldl (fun x y => x + y) 0 := by
    rw [List.map_map]
    apply List.map_congr_left
    intro c _
    simp [chunkSubtotal_eq]
  rw [e, foldl_add_subtotals hassoc hcomm hzero, ← allEnergies_flatten]
  refine (List.Perm.foldl_eq' (allEnergies_perm sqrt hperm) ?_ 0).symm
  intro x _ y _ z
  rw [hassoc, hcomm x y, ← hassoc]

theorem energy_nonNeg (p : Particle F64) : F64.NonNeg (2 ^ 1589) (p.energy F64.sqrt) := by
  unfold Particle.energy
  exact F64.sqrt_nonNeg (F64.add_nonNeg (F64.add_nonNeg
    (F64.add_nonNeg (F64.mul_self_nonNeg _) (F64.mul_self_nonNeg _))
    (F64.mul_self_nonNeg _)) (F64.mul_self_nonNeg _))

theorem energy_finite_form (p : Particle F64) (h : (p.energy F64.sqrt).isFinite = true) :
    ∃ m, m < 2 ^ 1589 ∧ p.energy F64.sqrt = F64.finite false m := by
  rcases energy_nonNeg p with h1 | h1 | h1
  · rw [h1] at h; cases h
  · rw [h1] at h; cases h
  · exact h1

theorem mem_allEnergies {α : Type} [Add α] [Mul α] (sqrt : α → α) (events : List (Event α))
    (x : α) (hx : x ∈ allEnergies sqrt events) :
    ∃ e ∈ events, ∃ p ∈ e.particles, x = p.energy sqrt := by
  unfold allEnergies at hx
  obtain ⟨p, hp, rfl⟩ := List.mem_map.mp hx
  obtain ⟨e, he, hpe⟩ := List.mem_flatMap.mp hp
  exact ⟨e, he, p, hpe, rfl⟩

/-- In doubles, for every schedule: when every particle energy is finite and the
particles and chunks number at most `2^51`, both runs end with a finite total energy
and the two differ by at most the fraction `(N + E) * 2^-51` of the batch total. -/
theorem energy_consistent_doubles (events : List (Event F64))
    (chunks : List (List (Event F64))) (hperm : chunks.flatten.Perm events)
    (hfin : ∀ e ∈ events, ∀ p ∈ e.particles, (p.energy F64.sqrt).isFinite = true)
    (hD : (allEnergies F64.sqrt events).length + chunks.length ≤ 2 ^ 51) :
    ∃ a b : Nat,
      (events.foldl (EventProcessor.processEvent F64.sqrt) EventProcessor.new).totalEnergy
        = F64.finite false a
      ∧ (EventProcessor.new.processEventsWith F64.sqrt chunks).totalEnergy = F64.finite false b
      ∧ |(a : ℝ) - b|
        ≤ (((allEnergies F64.sqrt events).length + chunks.length : Nat) : ℝ) / 2 ^ 51 * b := by
  have hall : ∀ x ∈ allEnergies F64.sqrt events, ∃ m, m < 2 ^ 1589 ∧ x = F64.finite false m := by
    intro x hx
    obtain ⟨e, he, p, hp, rfl⟩ := mem_allEnergies _ _ _ hx
    exact energy_finite_form p (hfin e he p hp)
  have hN : (allEnergies F64.sqrt events).length ≤ 2 ^ 51 := le_trans (Nat.le_add_right _ _) hD
  -- the sequential run
  obtain ⟨a, ha, haN⟩ := F64.foldl_add_finite _ hall hN
  -- the chunks
  have hpermE := allEnergies_perm F64.sqrt hperm
  have hchunk : ∀ c ∈ chunks, ∀ x ∈ allEnergies F64.sqrt c,
      ∃ m, m < 2 ^ 1589 ∧ x = F64.finite false m := by
    intro c hc x hx
    apply hall x
    apply hpermE.subset
    rw [allEnergies_flatten]
    exact List.mem_flatten.mpr ⟨_, List.mem_map.mpr ⟨c, hc, rfl⟩, hx⟩
  have hclen : ∀ c ∈ chunks, (allEnergies F64.sqrt c).length
      ≤ (allEnergies F64.sqrt events).length := by
    intro c hc
    rw [← hpermE.length_eq, allEnergies_flatten, List.length_flatten, List.map_map]
    exact List.single_le_sum (fun _ _ => Nat.zero_le _) _ (List.mem_map.mpr ⟨c, hc, rfl⟩)
  have hcres : ∀ c ∈ chunks,
      (chunkSubtotal F64.sqrt c).2
          = F64.finite false (F64.mag ((allEnergies F64.sqrt c).foldl (fun x y => x + y) 0))
        ∧ F64.Near (allEnergies F64.sqrt events).length
            ((F64.gridSum (allEnergies F64.sqrt c) : Nat) : ℝ)
            ((F64.mag ((allEnergies F64.sqrt c).foldl (fun x y => x + y) 0) : Nat) : ℝ) := by
    intro c hc
    obtain ⟨T, hT, hTN⟩ := F64.foldl_add_finite _ (hchunk c hc) (le_trans (hclen c hc) hN)
    rw [chunkSubtotal_eq]
    simp only [hT, F64.mag]
    exact ⟨trivial, F64.Near.mono (Nat.cast_nonneg _) hTN (hclen c hc)⟩
  have hsumS : ((chunks.map fun c => (((F64.gridSum (allEnergies F64.sqrt c) : Nat) : ℝ),
        F64.mag ((allEnergies F64.sqrt c).foldl (fun x y => x + y) 0))).map Prod.fst).sum
      = ((F64.gridSum (allEnergies F64.sqrt events) : Nat) : ℝ) := by
    rw [← F64.gridSum_perm hpermE, allEnergies_flatten, List.map_map]
    clear hcres hclen hchunk hD hperm hpermE
    induction chunks with
    | nil => simp [F64.gridSum]
    | cons c cs ih =>
      simp only [List.map_cons, List.sum_cons, List.flatten_cons, Function.comp] at ih ⊢
      rw [ih]
      simp [F64.gridSum, List.map_append, List.sum_append]
  have hB : (0 : ℝ) + ((chunks.map fun c => (((F64.gridSum (allEnergies F64.sqrt c) : Nat) : ℝ),
        F64.mag ((allEnergies F64.sqrt c).foldl (fun x y => x + y) 0))).map Prod.fst).sum
      ≤ 2 ^ 51 * 2 ^ 1589 := by
    rw [hsumS, zero_add]
    exact F64.gridSum_le_bound _ hall hN
  have hN0 : F64.Near ((allEnergies F64.sqrt events).length + 0) (0 : ℝ) ((0 : Nat) : ℝ) := by
    constructor <;> simp
  obtain ⟨b, hb, hbN⟩ := F64.foldl_add_near (2 ^ 51 * 2 ^ 1589) (2 ^ 51) F64.two_pow_bound
    (allEnergies F64.sqrt events).length
    (chunks.map fun c => (((F64.gridSum (allEnergies F64.sqrt c) : Nat) : ℝ),
        F64.mag ((allEnergies F64.sqrt c).foldl (fun x y => x + y) 0)))
    (by
      intro x hx
      obtain ⟨c, hc, rfl⟩ := List.mem_map.mp hx
      exact ⟨Nat.cast_nonneg _, (hcres c hc).2⟩)
    0 0 0 (le_refl _) hN0 hB
    (by rw [List.length_map, Nat.add_zero]; exact hD)
  have hmap : ((chunks.map fun c => (((F64.gridSum (allEnergies F64.sqrt c) : Nat) : ℝ),
        F64.mag ((allEnergies F64.sqrt c).foldl (fun x y => x + y) 0))).map
          fun x => F64.finite false x.2)
      = (chunks.map (chunkSubtotal F64.sqrt)).map Prod.snd := by
    rw [List.map_map, List.map_map]
    apply List.map_congr_left
    intro c hc
    exact ((hcres c hc).1).symm
  refine ⟨a, b, ?_, ?_, ?_⟩
  · rw [foldl_processEvent_eq]
    exact ha
  · rw [EventProcessor.processEventsWith, combine_eq, ← hmap]
    exact hb
  · have e1 : (allEnergies F64.sqrt events).length + 0 + (chunks.map fun c =>
        (((F64.gridSum (allEnergies F64.sqrt c) : Nat) : ℝ),
          F64.mag ((allEnergies F64.sqrt c).foldl (fun x y => x + y) 0))).length
        = (allEnergies F64.sqrt events).length + chunks.length := by
      rw [List.length_map, Nat.add_zero]
    rw [e1, hsumS, zero_add] at hbN
    exact F64.Near.close (Nat.le_add_right _ _) hD (Nat.cast_nonneg _) haN hbN

theorem unit_energy :
    Particle.energy F64.sqrt (⟨1, 0, 0, 0⟩ : Particle F64) = F64.finite false (1 * 2 ^ 1074) := by
  decide!

theorem allEnergies_unit (n : Nat) (k : Int) :
    allEnergies F64.sqrt [({ eventNumber := k, particles := List.replicate n ⟨1, 0, 0, 0⟩ } : Event F64)]
      = List.replicate n (F64.finite false (1 * 2 ^ 1074)) := by
  simp only [allEnergies, List.flatMap_cons, List.flatMap_nil, List.append_nil,
    List.map_replicate, unit_energy]

/-- Claim C2, the statement that fails. In doubles, take two events of `2^53`
particles `(1,0,0,0)` each, every particle of energy `1.0`.  Calling `processEvent`
for the first event and then for the second leaves `totalEnergy = 2^53`: the first
event brings the total to `2^53` and from there `2^53 + 1.0` rounds back to `2^53`.
One call of `processEvents` forms the two per-event sums `2^53` and adds them, which
leaves `totalEnergy = 2^54`, twice as much. -/
theorem processEvents_stagnates_doubles :
    ([({ eventNumber := 1, particles := List.replicate (2 ^ 53) ⟨1, 0, 0, 0⟩ } : Event F64),
        { eventNumber := 2, particles := List.replicate (2 ^ 53) ⟨1, 0, 0, 0⟩ }].foldl
        (EventProcessor.processEvent F64.sqrt) EventProcessor.new).totalEnergy
      = F64.finite false (2 ^ 53 * 2 ^ 1074)
    ∧ (EventProcessor.new.processEvents F64.sqrt
        [({ eventNumber := 1, particles := List.replicate (2 ^ 53) ⟨1, 0, 0, 0⟩ } : Event F64),
          { eventNumber := 2, particles := List.replicate (2 ^ 53) ⟨1, 0, 0, 0⟩ }]).totalEnergy
      = F64.finite false (2 ^ 54 * 2 ^ 1074) := by
  have hz : (0 : F64) = F64.finite false (0 * 2 ^ 1074) := by
    rw [Nat.zero_mul]; rfl
  have hsub : ∀ k : Int, (List.replicate (2 ^ 53) (F64.finite false (1 * 2 ^ 1074))).foldl
      (fun a b => a + b) (0 : F64) = F64.finite false (2 ^ 53 * 2 ^ 1074) := by
    intro _
    rw [hz, F64.foldl_add_one_exact (2 ^ 53) 0 (by rw [Nat.zero_add]), Nat.zero_add]
  constructor
  · rw [foldl_processEvent_eq]
    dsimp only [EventProcessor.new]
    rw [allEnergies_cons, List.foldl_append, List.map_replicate, unit_energy, allEnergies_unit,
      hsub 0, F64.foldl_add_one_stagnates]
  · rw [processEvents_eq_with, EventProcessor.processEventsWith, combine_eq]
    dsimp only [EventProcessor.new]
    simp only [List.map_cons, List.map_nil, chunkSubtotal_eq, allEnergies_unit, hsub 0,
      List.foldl_cons, List.foldl_nil]
    decide!

theorem flatten_map_singleton {β : Type} (l : List β) : (l.map fun e => [e]).flatten = l := by
  induction l with
  | nil => rfl
  | cons x xs ih => rw [List.map_cons, List.flatten_cons, ih]; rfl

/-- Claim C2, amended. For every sequence of events, starting from two freshly
constructed processors, calling `processEvent` once per event in order on the first
and `processEvents` once with the whole sequence on the second, whatever the
distribution of the events over the workers and the order in which their sums are
combined (`chunks`), leaves both with the same `totalTracksProcessed`, exactly, and,
when addition is exact (associative, commutative, `0.0` neutral), with the same
`totalEnergy`.  In doubles, when every particle energy is finite and the number of
particles plus the number of chunks is at most `2^51`, both runs end with a finite
`totalEnergy` and the two values differ by at most the fraction
`(particles + chunks) * 2^-51` of the value `processEvents` leaves. -/
theorem processEvents_consistent {α : Type} [Zero α] [Add α] [Mul α] (sqrt : α → α)
    (events : List (Event α)) (chunks : List (List (Event α)))
    (hperm : chunks.flatten.Perm events) :
    ((events.foldl (EventProcessor.processEvent sqrt) EventProcessor.new).totalTracksProcessed
        = (EventProcessor.new.processEventsWith sqrt chunks).totalTracksProcessed
      ∧ (events.foldl (EventProcessor.processEvent sqrt)
            EventProcessor.new).totalTracksProcessed
        = (EventProcessor.new.processEvents sqrt events).totalTracksProcessed)
    ∧ ((∀ a b c : α, a + b + c = a + (b + c)) → (∀ a b : α, a + b = b + a) →
        (∀ a : α, a + 0 = a) →
        (events.foldl (EventProcessor.processEvent sqrt) EventProcessor.new).totalEnergy
          = (EventProcessor.new.processEventsWith sqrt chunks).totalEnergy
        ∧ (events.foldl (EventProcessor.processEvent sqrt) EventProcessor.new).totalEnergy
          = (EventProcessor.new.processEvents sqrt events).totalEnergy)
    ∧ EventProcessor.new.processEvents sqrt events
        = EventProcessor.new.processEventsWith sqrt (events.map fun e => [e])
    ∧ (∀ (dEvents : List (Event F64)) (dChunks : List (List (Event F64))),
        dChunks.flatten.Perm dEvents →
        (∀ e ∈ dEvents, ∀ p ∈ e.particles, (p.energy F64.sqrt).isFinite = true) →
        (allEnergies F64.sqrt dEvents).length + dChunks.length ≤ 2 ^ 51 →
        ∃ a b : Nat,
          (dEvents.foldl (EventProcessor.processEvent F64.sqrt)
              EventProcessor.new).totalEnergy = F64.finite false a
          ∧ (EventProcessor.new.processEventsWith F64.sqrt dChunks).totalEnergy
              = F64.finite false b
          ∧ |(a : ℝ) - b|
            ≤ (((allEnergies F64.sqrt dEvents).length + dChunks.length : Nat) : ℝ) / 2 ^ 51
              * b) := by
  have hsingle : ((events.map fun e => [e]).flatten).Perm events := by
    rw [flatten_map_singleton]
  refine ⟨⟨tracks_consistent sqrt events chunks hperm, ?_⟩, ?_, processEvents_eq_with sqrt _ _,
    ?_⟩
  · rw [processEvents_eq_with]
    exact tracks_consistent sqrt events _ hsingle
  · intro hassoc hcomm hzero
    refine ⟨energy_consistent_exact sqrt events chunks hperm hassoc hcomm hzero, ?_⟩
    rw [processEvents_eq_with]
    exact energy_consistent_exact sqrt events _ hsingle hassoc hcomm hzero
  · intro dEvents dChunks h1 h2 h3
    exact energy_consistent_doubles dEvents dChunks h1 h2 h3

theorem processEvents_consistent_witness :
    (([[⟨2, [⟨3, 4, 0, 0⟩]⟩], [⟨1, [⟨1, 0, 0, 0⟩, ⟨0, 2, 0, 0⟩]⟩]] :
        List (List (Event ℕ))).flatten.Perm
      [⟨1, [⟨1, 0, 0, 0⟩, ⟨0, 2, 0, 0⟩]⟩, ⟨2, [⟨3, 4, 0, 0⟩]⟩])
    ∧ (([⟨1, [⟨1, 0, 0, 0⟩, ⟨0, 2, 0, 0⟩]⟩, ⟨2, [⟨3, 4, 0, 0⟩]⟩] : List (Event ℕ)).foldl
          (EventProcessor.processEvent isqrt) EventProcessor.new).totalEnergy
        = (EventProcessor.new.processEventsWith isqrt
            [[⟨2, [⟨3, 4, 0, 0⟩]⟩], [⟨1, [⟨1, 0, 0, 0⟩, ⟨0, 2, 0, 0⟩]⟩]]).totalEnergy
    ∧ (([[⟨2, [⟨3, 4, 0, 0⟩]⟩], [⟨1, [⟨1, 0, 0, 0⟩, ⟨0, 2, 0, 0⟩]⟩]] :
        List (List (Event F64))).flatten.Perm
      [⟨1, [⟨1, 0, 0, 0⟩, ⟨0, 2, 0, 0⟩]⟩, ⟨2, [⟨3, 4, 0, 0⟩]⟩])
    ∧ (∀ e ∈ ([⟨1, [⟨1, 0, 0, 0⟩, ⟨0, 2, 0, 0⟩]⟩, ⟨2, [⟨3, 4, 0, 0⟩]⟩] : List (Event F64)),
        ∀ p ∈ e.particles, (p.energy F64.sqrt).isFinite = true)
    ∧ ∃ a b : Nat,
        (([⟨1, [⟨1, 0, 0, 0⟩, ⟨0, 2, 0, 0⟩]⟩, ⟨2, [⟨3, 4, 0, 0⟩]⟩] : List (Event F64)).foldl
            (EventProcessor.processEvent F64.sqrt) EventProcessor.new).totalEnergy
          = F64.finite false a
        ∧ (EventProcessor.new.processEventsWith F64.sqrt
            [[⟨2, [⟨3, 4, 0, 0⟩]⟩], [⟨1, [⟨1, 0, 0, 0⟩, ⟨0, 2, 0, 0⟩]⟩]]).totalEnergy
          = F64.finite false b
        ∧ |(a : ℝ) - b| ≤ ((3 + 2 : Nat) : ℝ) / 2 ^ 51 * b := by
  have hpN : ([[⟨2, [⟨3, 4, 0, 0⟩]⟩], [⟨1, [⟨1, 0, 0, 0⟩, ⟨0, 2, 0, 0⟩]⟩]] :
      List (List (Event ℕ))).flatten.Perm
      [⟨1, [⟨1, 0, 0, 0⟩, ⟨0, 2, 0, 0⟩]⟩, ⟨2, [⟨3, 4, 0, 0⟩]⟩] := List.Perm.swap _ _ _
  have hpF : ([[⟨2, [⟨3, 4, 0, 0⟩]⟩], [⟨1, [⟨1, 0, 0, 0⟩, ⟨0, 2, 0, 0⟩]⟩]] :
      List (List (Event F64))).flatten.Perm
      [⟨1, [⟨1, 0, 0, 0⟩, ⟨0, 2, 0, 0⟩]⟩, ⟨2, [⟨3, 4, 0, 0⟩]⟩] := List.Perm.swap _ _ _
  have hfin : ∀ e ∈ ([⟨1, [⟨1, 0, 0, 0⟩, ⟨0, 2, 0, 0⟩]⟩, ⟨2, [⟨3, 4, 0, 0⟩]⟩] :
      List (Event F64)), ∀ p ∈ e.particles, (p.energy F64.sqrt).isFinite = true := by
    decide!
  have hN := processEvents_consistent isqrt
    [⟨1, [⟨1, 0, 0, 0⟩, ⟨0, 2, 0, 0⟩]⟩, ⟨2, [⟨3, 4, 0, 0⟩]⟩]
    [[⟨2, [⟨3, 4, 0, 0⟩]⟩], [⟨1, [⟨1, 0, 0, 0⟩, ⟨0, 2, 0, 0⟩]⟩]] hpN
  exact ⟨hpN, (hN.2.1 Nat.add_assoc Nat.add_comm Nat.add_zero).1, hpF, hfin,
    hN.2.2.2 _ _ hpF hfin (by decide)⟩

/-- Claim C3, the statement that fails. In doubles, from `totalEnergy = 1e16` the
event `{(1,0,0,0), (1,0,0,0)}`, whose two particles have energy `1.0` each, leaves
`totalEnergy` at `1e16` (`1e16 + 1.0` rounds back to `1e16`, twice), while `1e16` plus
the sum `2.0` of the two energies is `10000000000000002`. -/
theorem processEvent_rounds_doubles :
    ((EventProcessor.mk 0 (10000000000000000 : F64)).processEvent F64.sqrt
        { eventNumber := 1, particles := [⟨1, 0, 0, 0⟩, ⟨1, 0, 0, 0⟩] }).totalEnergy
      = 10000000000000000
    ∧ (Particle.energy F64.sqrt ⟨1, 0, 0, 0⟩ = 1)
    ∧ (10000000000000000 : F64)
        + (Particle.energy F64.sqrt ⟨1, 0, 0, 0⟩ + Particle.energy F64.sqrt ⟨1, 0, 0, 0⟩)
      = 10000000000000002
    ∧ (10000000000000000 : F64) ≠ 10000000000000002 := by
  decide!

/-- Claim C3, amended. For every processor state and every event, `processEvent(event)`
increases `totalTracksProcessed` by exactly the number of particles of the event and
adds the particles' energies `sqrt(px² + py² + pz² + mass²)` to `totalEnergy` one
after the other in particle order, so that `totalEnergy` becomes
`((old + e_1) + e_2) + ...`; when addition is exact (associative, with `0.0`
neutral) that is `old` plus the sum of the energies.  An event with zero particles
leaves both totals unchanged.  On a fresh processor the event
`{(1,0,0,0), (0,2,0,0)}` gives the totals `(2, 3.0)`, in exact real arithmetic and in
doubles. -/
theorem processEvent_spec {α : Type} [Zero α] [Add α] [Mul α] (sqrt : α → α)
    (s : EventProcessor α) (event : Event α) :
    (s.processEvent sqrt event).totalTracksProcessed
        = s.totalTracksProcessed + event.particles.length
    ∧ (s.processEvent sqrt event).totalEnergy
        = (event.particles.map fun p =>
            sqrt (p.px * p.px + p.py * p.py + p.pz * p.pz + p.mass * p.mass)).foldl
          (fun x y => x + y) s.totalEnergy
    ∧ ((∀ a b c : α, a + b + c = a + (b + c)) → (∀ a : α, a + 0 = a) →
        (s.processEvent sqrt event).totalEnergy
          = s.totalEnergy
            + (event.particles.map fun p =>
                sqrt (p.px * p.px + p.py * p.py + p.pz * p.pz + p.mass * p.mass)).sum)
    ∧ (event.particles = [] → s.processEvent sqrt event = s)
    ∧ (EventProcessor.new (α := ℝ)).processEvent Real.sqrt
          { eventNumber := 1, particles := [⟨1, 0, 0, 0⟩, ⟨0, 2, 0, 0⟩] }
        = { totalTracksProcessed := 2, totalEnergy := 3 }
    ∧ (EventProcessor.new (α := F64)).processEvent F64.sqrt
          { eventNumber := 1, particles := [⟨1, 0, 0, 0⟩, ⟨0, 2, 0, 0⟩] }
        = { totalTracksProcessed := 2, totalEnergy := 3 } := by
  refine ⟨?_, ?_, ?_, ?_, ?_, ?_⟩
  · rw [processEvent_eq_foldl]
  · rw [processEvent_eq_foldl]; rfl
  · intro hassoc hzero
    rw [processEvent_eq_foldl]
    exact foldl_add_eq_add_sum hassoc hzero _ _
  · intro h; simp [EventProcessor.processEvent, h]
  · have h4 : Real.sqrt (2 * 2) = 2 := Real.sqrt_mul_self (by norm_num)
    simp [EventProcessor.processEvent, EventProcessor.new, Particle.energy, h4]
    norm_num
  · decide!

theorem processEvent_spec_witness :
    ((∀ a b c : ℕ, a + b + c = a + (b + c)) ∧ (∀ a : ℕ, a + 0 = a))
    ∧ ((EventProcessor.mk 4 (9 : ℕ)).processEvent isqrt
          { eventNumber := 7, particles := [⟨3, 4, 0, 0⟩, ⟨0, 0, 0, 2⟩] }).totalEnergy
        = 9 + ([⟨3, 4, 0, 0⟩, ⟨0, 0, 0, 2⟩].map fun p : Particle ℕ =>
            isqrt (p.px * p.px + p.py * p.py + p.pz * p.pz + p.mass * p.mass)).sum
    ∧ ((EventProcessor.mk 4 (9 : ℕ)).processEvent isqrt
          { eventNumber := 7, particles := [⟨3, 4, 0, 0⟩, ⟨0, 0, 0, 2⟩] }).totalTracksProcessed
        = 4 + 2
    ∧ (({ eventNumber := 5, particles := [] } : Event ℕ).particles = [])
    ∧ (EventProcessor.mk 4 (9 : ℕ)).processEvent isqrt { eventNumber := 5, particles := [] }
        = EventProcessor.mk 4 9 :=
  ⟨⟨Nat.add_assoc, Nat.add_zero⟩,
   (processEvent_spec isqrt (EventProcessor.mk 4 (9 : ℕ))
      { eventNumber := 7, particles := [⟨3, 4, 0, 0⟩, ⟨0, 0, 0, 2⟩] }).2.2.1
      Nat.add_assoc Nat.add_zero,
   (processEvent_spec isqrt (EventProcessor.mk 4 (9 : ℕ))
      { eventNumber := 7, particles := [⟨3, 4, 0, 0⟩, ⟨0, 0, 0, 2⟩] }).1,
   rfl,
   (processEvent_spec isqrt (EventProcessor.mk 4 (9 : ℕ))
      { eventNumber := 5, particles := [] }).2.2.2.1 rfl⟩

/-- Claim C7. From every state reachable by a sequence of `processEvent`,
`processEvents` and `reset` calls (on a fresh processor or on any other state),
`reset()` leaves `totalTracksProcessed() == 0` and `totalEnergy() == 0.0`, the totals
of a default-constructed processor. -/
theorem reset_spec {α : Type} [Zero α] [Add α] [Mul α] (sqrt : α → α)
    (s : EventProcessor α) (calls : List (Call α)) :
    ((EventProcessor.new.run sqrt calls).reset.totalTracksProcessed = 0
      ∧ (EventProcessor.new.run sqrt calls).reset.totalEnergy = 0)
    ∧ ((s.run sqrt calls).reset.totalTracksProcessed = 0
      ∧ (s.run sqrt calls).reset.totalEnergy = 0)
    ∧ (s.run sqrt calls).reset = EventProcessor.new
    ∧ (EventProcessor.new (α := α)).totalTracksProcessed = 0
    ∧ (EventProcessor.new (α := α)).totalEnergy = 0 :=
  ⟨⟨rfl, rfl⟩, ⟨rfl, rfl⟩, rfl, rfl, rfl⟩

end csc2026
